import Mathlib

/-!
Verification development for the jigsaw client core
(crates/client/src/pieces.rs and crates/client/src/network.rs).

The Rust sources are shallowly embedded as executable Lean definitions:

* The VecDeque piece stack and its operations (remove_entity, put_on_top,
  put_on_bottom) become operations on a List of entities; the front of the
  VecDeque is the head of the list.  A failing unwrap in the source is
  modelled as an Option result, with none standing for the fatal panic.
* The move_piece and sort_pieces bevy systems become pure state
  transformers over a PieceWorld record holding the piece transforms and
  the stack.  The f32 arithmetic of sort_pieces is modelled over the
  rationals (the ideal arithmetic the interpolation formula denotes).
* The download_puzzle and event_io systems become step functions over
  explicit session states; the bevy Events plus ManualEventReader pair is
  modelled, as in the code, as an append-only queue per event category
  together with a read cursor per category.
* The transport worker (spawn_network_io_task) becomes a labelled
  small-step transition relation over a worker state, with one label per
  internal loop, so that the cooperative shutdown protocol can be stated.

External collaborators (the game crate types Puzzle and the event payload
types, bevy itself, the websocket) appear only through parameters of the
definitions, exactly at the points where the source calls into them.
-/

namespace Jigsaw

/-- Bevy entity identifiers, opaque here. -/
abbrev Entity := Nat

/-- PieceIndex is a (row, column) pair. -/
abbrev PieceIndex := Nat × Nat

/-! ## Piece stack (pieces.rs, impl PieceStack)

The source stores the stack as a VecDeque of entities; the front of the
deque is the front (top) of the stack.  remove_entity removes the entity
at the position of its first occurrence and unwraps the position lookup:
an absent entity makes the system panic, which the embedding renders as
none. -/

/-- Embeds PieceStack.remove_entity: remove the first occurrence of the
entity; none models the unwrap panic when the entity is absent. -/
def remove_entity (s : List Entity) (e : Entity) : Option (List Entity) :=
  if e ∈ s then some (s.erase e) else none

/-- Embeds PieceStack.put_on_top: remove, then push to the front. -/
def put_on_top (s : List Entity) (e : Entity) : Option (List Entity) :=
  (remove_entity s e).map (fun s₁ => e :: s₁)

/-- Embeds PieceStack.put_on_bottom: remove, then push to the back. -/
def put_on_bottom (s : List Entity) (e : Entity) : Option (List Entity) :=
  (remove_entity s e).map (fun s₁ => s₁ ++ [e])

theorem remove_entity_of_count_one (s : List Entity) (e : Entity)
    (h : s.count e = 1) :
    remove_entity s e = some (s.erase e) ∧ (s.erase e).length + 1 = s.length ∧
      (s.erase e).count e = 0 := by
  have hmem : e ∈ s := by
    have : 0 < s.count e := by omega
    exact List.count_pos_iff.mp this
  refine ⟨by simp [remove_entity, hmem], ?_, ?_⟩
  · have := List.length_erase_of_mem hmem
    have hlen : 0 < s.length := List.length_pos_of_mem hmem
    omega
  · have := List.count_erase_self e s
    omega

/-- C5: for a stack holding an id exactly once, put_on_top keeps the
length, puts the id at the front, and keeps it present exactly once;
put_on_bottom symmetrically puts it at the back; for an absent id both
operations are the fatal invariant breach (modelled as none). -/
theorem put_on_top_bottom_spec (s : List Entity) (e : Entity) :
    (s.count e = 1 →
      ∃ s₁, put_on_top s e = some s₁ ∧ s₁.length = s.length ∧
        s₁.head? = some e ∧ s₁.count e = 1) ∧
    (s.count e = 1 →
      ∃ s₂, put_on_bottom s e = some s₂ ∧ s₂.length = s.length ∧
        s₂.getLast? = some e ∧ s₂.count e = 1) ∧
    (e ∉ s → put_on_top s e = none ∧ put_on_bottom s e = none) := by
  refine ⟨fun h => ?_, fun h => ?_, fun h => ?_⟩
  · obtain ⟨hrm, hlen, hcnt⟩ := remove_entity_of_count_one s e h
    refine ⟨e :: s.erase e, by simp [put_on_top, hrm], by simp; omega, rfl, ?_⟩
    simp [List.count_cons, hcnt]
  · obtain ⟨hrm, hlen, hcnt⟩ := remove_entity_of_count_one s e h
    refine ⟨s.erase e ++ [e], by simp [put_on_bottom, hrm], by simp; omega,
      List.getLast?_concat _, ?_⟩
    simp [List.count_append, hcnt]
  · constructor <;> simp [put_on_top, put_on_bottom, remove_entity, h]

/-- A witness for put_on_top_bottom_spec at the stack [1, 2, 3] and id 2,
and at the absent id 5. -/
theorem put_on_top_bottom_spec_witness :
    (∃ s₁, put_on_top [1, 2, 3] 2 = some s₁ ∧ s₁.length = 3 ∧
      s₁.head? = some 2 ∧ s₁.count 2 = 1) ∧
    (∃ s₂, put_on_bottom [1, 2, 3] 2 = some s₂ ∧ s₂.length = 3 ∧
      s₂.getLast? = some 2 ∧ s₂.count 2 = 1) ∧
    put_on_top [1, 2, 3] 5 = none ∧ put_on_bottom [1, 2, 3] 5 = none := by
  obtain ⟨h1, h2, h3⟩ := put_on_top_bottom_spec [1, 2, 3] 2
  obtain ⟨h4, h5, h6⟩ := put_on_top_bottom_spec [1, 2, 3] 5
  exact ⟨h1 (by decide), h2 (by decide), h6 (by decide)⟩

/-! ## move_piece and sort_pieces (pieces.rs)

move_piece reads the PieceMovedEvent queue; for each event it looks up
the entity of the named piece in the PieceMap, overwrites the x and y
components of the translation of that entity, and restacks the entity:
put_on_bottom when the group of the piece is locked, put_on_top
otherwise.  Every lookup in the source is an unwrap, so the embedding
returns none when any of them misses.  The puzzle lock query and the
piece map are external inputs and enter as function parameters. -/

/-- Translation vector of a bevy Transform, over the rationals. -/
structure Vec3 where
  x : ℚ
  y : ℚ
  z : ℚ
deriving DecidableEq

/-- A bevy Transform, reduced to the translation the systems touch. -/
structure Transform where
  translation : Vec3
deriving DecidableEq

/-- The PieceMoved event payload used by move_piece. -/
structure PieceMovedEvent where
  index : PieceIndex
  x : ℚ
  y : ℚ

/-- The state move_piece and sort_pieces act on: the transform of every
piece entity and the piece stack. -/
structure PieceWorld where
  transforms : Entity → Option Transform
  stack : List Entity

/-- Embeds the body of the per-event loop of move_piece: look the entity
up in the piece map, set translation.x and translation.y from the event,
and restack by the lock state of the group.  none models a panic of any
of the unwraps in the loop body. -/
def move_piece_step (piece_map : PieceIndex → Option Entity)
    (piece_group_locked : PieceIndex → Bool)
    (w : PieceWorld) (event : PieceMovedEvent) : Option PieceWorld :=
  match piece_map event.index with
  | none => none
  | some piece_entity =>
    match w.transforms piece_entity with
    | none => none
    | some t =>
      let t₁ : Transform := ⟨⟨event.x, event.y, t.translation.z⟩⟩
      let transforms₁ : Entity → Option Transform :=
        fun e => if e = piece_entity then some t₁ else w.transforms e
      if piece_group_locked event.index then
        (put_on_bottom w.stack piece_entity).map (fun st => ⟨transforms₁, st⟩)
      else
        (put_on_top w.stack piece_entity).map (fun st => ⟨transforms₁, st⟩)

/-- Embeds the move_piece system: fold move_piece_step over the drained
event list, in order. -/
def move_piece (piece_map : PieceIndex → Option Entity)
    (piece_group_locked : PieceIndex → Bool)
    (w : PieceWorld) (events : List PieceMovedEvent) : Option PieceWorld :=
  events.foldlM (move_piece_step piece_map piece_group_locked) w

theorem move_piece_step_characterization (pm : PieceIndex → Option Entity)
    (locked : PieceIndex → Bool) (w : PieceWorld) (event : PieceMovedEvent)
    (w' : PieceWorld) (hstep : move_piece_step pm locked w event = some w') :
    ∃ ent t st, pm event.index = some ent ∧ w.transforms ent = some t ∧
      w'.transforms = (fun e =>
        if e = ent then some ⟨⟨event.x, event.y, t.translation.z⟩⟩
        else w.transforms e) ∧
      w'.stack = st ∧
      (if locked event.index then put_on_bottom w.stack ent
       else put_on_top w.stack ent) = some st := by
  unfold move_piece_step at hstep
  split at hstep
  · exact absurd hstep (by simp)
  next ent₀ hpm₀ =>
    split at hstep
    · exact absurd hstep (by simp)
    next t₀ ht₀ =>
      dsimp only at hstep
      by_cases hl : locked event.index = true
      · rw [if_pos hl] at hstep
        cases hb : put_on_bottom w.stack ent₀ with
        | none => rw [hb] at hstep; exact absurd hstep (by simp)
        | some st =>
          rw [hb, Option.map_some'] at hstep
          obtain rfl := Option.some_inj.mp hstep
          exact ⟨ent₀, t₀, st, hpm₀, ht₀, rfl, rfl, by rw [if_pos hl]; exact hb⟩
      · rw [if_neg hl] at hstep
        cases hb : put_on_top w.stack ent₀ with
        | none => rw [hb] at hstep; exact absurd hstep (by simp)
        | some st =>
          rw [hb, Option.map_some'] at hstep
          obtain rfl := Option.some_inj.mp hstep
          exact ⟨ent₀, t₀, st, hpm₀, ht₀, rfl, rfl, by rw [if_neg hl]; exact hb⟩

/-- C6: a PieceMoved event whose piece belongs to a locked group is sent
to the back of the stack through put_on_bottom; a piece of an unlocked
group is sent to the front through put_on_top. -/
theorem move_piece_stack_policy (pm : PieceIndex → Option Entity)
    (locked : PieceIndex → Bool) (w : PieceWorld) (event : PieceMovedEvent)
    (w' : PieceWorld) (ent : Entity)
    (hstep : move_piece_step pm locked w event = some w')
    (hent : pm event.index = some ent) :
    (locked event.index = true → w'.stack.getLast? = some ent) ∧
    (locked event.index = false → w'.stack.head? = some ent) := by
  obtain ⟨ent₁, t, st, hpm, ht, htr, hst, hput⟩ :=
    move_piece_step_characterization pm locked w event w' hstep
  have hee : ent₁ = ent := by rw [hent] at hpm; exact (Option.some_inj.mp hpm).symm
  subst hee
  constructor
  · intro hl
    rw [hl, if_pos rfl] at hput
    unfold put_on_bottom at hput
    cases hrm : remove_entity w.stack ent₁ with
    | none => rw [hrm] at hput; exact absurd hput (by simp)
    | some s₁ =>
      rw [hrm, Option.map_some', Option.some_inj] at hput
      rw [hst, ← hput]
      exact List.getLast?_concat _
  · intro hl
    rw [hl, if_neg Bool.false_ne_true] at hput
    unfold put_on_top at hput
    cases hrm : remove_entity w.stack ent₁ with
    | none => rw [hrm] at hput; exact absurd hput (by simp)
    | some s₁ =>
      rw [hrm, Option.map_some', Option.some_inj] at hput
      rw [hst, ← hput]
      rfl

/-- A witness for move_piece_stack_policy: a piece of a locked group,
moved in a two piece world, ends at the back of the stack. -/
theorem move_piece_stack_policy_witness :
    ([2, 1] : List Entity).getLast? = some 1 :=
  (move_piece_stack_policy (fun _ => some 1) (fun _ => true)
    ⟨fun _ => some ⟨⟨0, 0, 0⟩⟩, [1, 2]⟩ ⟨(0, 0), 3, 4⟩
    ⟨fun e => if e = 1 then some ⟨⟨3, 4, 0⟩⟩ else some ⟨⟨0, 0, 0⟩⟩, [2, 1]⟩ 1
    rfl rfl).1 rfl

theorem move_piece_step_frame (pm : PieceIndex → Option Entity)
    (locked : PieceIndex → Bool) (w : PieceWorld) (event : PieceMovedEvent)
    (w' : PieceWorld) (hstep : move_piece_step pm locked w event = some w') :
    ∃ ent, pm event.index = some ent ∧
      (∀ e, e ≠ ent → w'.transforms e = w.transforms e) ∧
      (∀ e t, w.transforms e = some t →
        ∃ t', w'.transforms e = some t' ∧
          t'.translation.z = t.translation.z) := by
  obtain ⟨ent, t₀, st, hpm, ht₀, htr, hst, hput⟩ :=
    move_piece_step_characterization pm locked w event w' hstep
  refine ⟨ent, hpm, ?_, ?_⟩
  · intro e he
    rw [htr]
    simp [he]
  · intro e t ht
    by_cases he : e = ent
    · subst he
      rw [ht₀] at ht
      obtain rfl := Option.some_inj.mp ht
      refine ⟨⟨⟨event.x, event.y, t₀.translation.z⟩⟩, ?_, rfl⟩
      rw [htr]
      simp
    · refine ⟨t, ?_, rfl⟩
      rw [htr]
      simp [he, ht]

/-- C10: move_piece only rewrites the x and y translation components of
the entities named by its events; the z component of every transform is
preserved, and entities named by no event keep their transform; a single
event rewrites its own entity to the event coordinates and touches no
other entity. -/
theorem move_piece_frame (pm : PieceIndex → Option Entity)
    (locked : PieceIndex → Bool) :
    (∀ w events w', move_piece pm locked w events = some w' →
      (∀ e, (∀ ev ∈ events, pm ev.index ≠ some e) →
        w'.transforms e = w.transforms e) ∧
      (∀ e t, w.transforms e = some t →
        ∃ t', w'.transforms e = some t' ∧
          t'.translation.z = t.translation.z)) ∧
    (∀ w event w' ent t, move_piece_step pm locked w event = some w' →
      pm event.index = some ent → w.transforms ent = some t →
      w'.transforms ent = some ⟨⟨event.x, event.y, t.translation.z⟩⟩ ∧
      ∀ e, e ≠ ent → w'.transforms e = w.transforms e) := by
  constructor
  · intro w events
    induction events generalizing w with
    | nil =>
      intro w' h
      have hww : w = w' := by simpa [move_piece] using h
      subst hww
      exact ⟨fun e _ => rfl, fun e t ht => ⟨t, ht, rfl⟩⟩
    | cons ev evs ih =>
      intro w' h
      rw [move_piece, List.foldlM_cons] at h
      cases h1 : move_piece_step pm locked w ev with
      | none => rw [h1] at h; exact absurd h (by simp)
      | some w₁ =>
        rw [h1] at h
        simp only [Option.bind_eq_bind, Option.some_bind] at h
        obtain ⟨hu, hz⟩ := ih w₁ w' h
        obtain ⟨ent, hpm, hother, hzstep⟩ :=
          move_piece_step_frame pm locked w ev w₁ h1
        constructor
        · intro e hall
          have hne : e ≠ ent := by
            intro he
            exact hall ev (List.mem_cons_self ev evs) (he ▸ hpm)
          rw [hu e (fun ev' hev' => hall ev' (List.mem_cons_of_mem ev hev')),
            hother e hne]
        · intro e t ht
          obtain ⟨t₁, ht₁, hzt₁⟩ := hzstep e t ht
          obtain ⟨t₂, ht₂, hzt₂⟩ := hz e t₁ ht₁
          exact ⟨t₂, ht₂, by rw [hzt₂, hzt₁]⟩
  · intro w event w' ent t hstep hpm ht
    obtain ⟨ent₀, t₀, st, hpm₀, ht₀, htr, hst, hput⟩ :=
      move_piece_step_characterization pm locked w event w' hstep
    rw [hpm] at hpm₀
    obtain rfl := Option.some_inj.mp hpm₀
    rw [ht] at ht₀
    obtain rfl := Option.some_inj.mp ht₀
    constructor
    · rw [htr]
      simp
    · intro e he
      rw [htr]
      simp [he]

/-- A witness for move_piece_frame: in a two piece world, moving piece 1
leaves the transform of piece 2 untouched. -/
theorem move_piece_frame_witness :
    (PieceWorld.mk
      (fun e => if e = 1 then some ⟨⟨3, 4, 7⟩⟩ else some ⟨⟨0, 0, 7⟩⟩)
      [1, 2]).transforms 2 =
    (PieceWorld.mk (fun _ => some ⟨⟨0, 0, 7⟩⟩) [1, 2]).transforms 2 :=
  ((move_piece_frame (fun _ => some 1) (fun _ => false)).1
    ⟨fun _ => some ⟨⟨0, 0, 7⟩⟩, [1, 2]⟩ [⟨(0, 0), 3, 4⟩]
    ⟨fun e => if e = 1 then some ⟨⟨3, 4, 7⟩⟩ else some ⟨⟨0, 0, 7⟩⟩, [1, 2]⟩
    rfl).1 2 (by intro ev hev; decide)

/-! ## sort_pieces depth assignment (pieces.rs)

sort_pieces computes z_step = (MAX_PIECE_HEIGHT - MIN_PIECE_HEIGHT) /
piece_count as f32 and assigns the piece at stack position i the depth
MAX_PIECE_HEIGHT - i as f32 * z_step, all in f32 arithmetic.  Every f32
operation rounds its exact result to the nearest representable binary32
value, ties to even; f32round below implements exactly that rounding
for values in the binary32 normal range (which covers every value this
system computes - no subnormals, overflow or NaN arise from these
inputs), so sub32, mul32 and div32 are the f32 subtraction,
multiplication and division of the source, and f32round itself is the
usize-to-f32 cast.  The exact rational reading of the same
interpolation formula - the spec wording, depths linearly interpolated
between the two bounds - is kept alongside under the _exact names. -/

/-- Nearest integer to m, ties to even. -/
def roundIntNE (m : ℚ) : ℤ :=
  if m - ⌊m⌋ < 1 / 2 then ⌊m⌋
  else if 1 / 2 < m - ⌊m⌋ then ⌊m⌋ + 1
  else if ⌊m⌋ % 2 = 0 then ⌊m⌋ else ⌊m⌋ + 1

/-- Round to the nearest binary32 value, ties to even: the mantissa grid
at 2 ^ (e - 23) where e is the floor base-2 logarithm of the magnitude
(valid for the binary32 normal range). -/
def f32round (q : ℚ) : ℚ :=
  if q = 0 then 0
  else
    (if q < 0 then -1 else 1) *
      (roundIntNE (|q| / 2 ^ (Int.log 2 |q| - 23)) *
        2 ^ (Int.log 2 |q| - 23))

/-- The f32 subtraction of the source. -/
def sub32 (a b : ℚ) : ℚ := f32round (a - b)

/-- The f32 multiplication of the source. -/
def mul32 (a b : ℚ) : ℚ := f32round (a * b)

/-- The f32 division of the source. -/
def div32 (a b : ℚ) : ℚ := f32round (a / b)

/-- MIN_PIECE_HEIGHT constant of pieces.rs (exactly representable). -/
def MIN_PIECE_HEIGHT : ℚ := 500

/-- MAX_PIECE_HEIGHT constant of pieces.rs (exactly representable). -/
def MAX_PIECE_HEIGHT : ℚ := 900

/-- The z_step local of sort_pieces, in f32 arithmetic. -/
def z_step (piece_count : Nat) : ℚ :=
  div32 (sub32 MAX_PIECE_HEIGHT MIN_PIECE_HEIGHT) (f32round piece_count)

/-- Depth assigned by sort_pieces to stack position i (0 = front), in
f32 arithmetic. -/
def sort_depth (piece_count i : Nat) : ℚ :=
  sub32 MAX_PIECE_HEIGHT (mul32 (f32round i) (z_step piece_count))

/-- Embeds the sort_pieces system: pair every stacked entity with the
depth of its stack position. -/
def sort_pieces (piece_count : Nat) (stack : List Entity) :
    List (Entity × ℚ) :=
  stack.enum.map (fun p => (p.2, sort_depth piece_count p.1))

/-- Exact-arithmetic reading of z_step: the interpolation step the spec
wording describes, over the rationals. -/
def z_step_exact (piece_count : Nat) : ℚ :=
  (MAX_PIECE_HEIGHT - MIN_PIECE_HEIGHT) / piece_count

/-- Exact-arithmetic reading of the depth of stack position i: linear
interpolation between the two bounds, over the rationals. -/
def sort_depth_exact (piece_count i : Nat) : ℚ :=
  MAX_PIECE_HEIGHT - i * z_step_exact piece_count

theorem int_log_two_eq (r : ℚ) (e : ℤ) (hr : 0 < r)
    (h1 : ((2 : ℕ) : ℚ) ^ e ≤ r) (h2 : r < ((2 : ℕ) : ℚ) ^ (e + 1)) :
    Int.log 2 r = e := by
  have ha : e ≤ Int.log 2 r := (Int.zpow_le_iff_le_log (by norm_num) hr).mp h1
  have hb : Int.log 2 r < e + 1 :=
    (Int.lt_zpow_iff_log_lt (by norm_num) hr).mp h2
  omega

theorem roundIntNE_intCast (z : ℤ) : roundIntNE (z : ℚ) = z := by
  rw [roundIntNE, Int.floor_intCast]
  rw [if_pos (by norm_num)]

theorem roundIntNE_down (m : ℚ) (z : ℤ) (h1 : (z : ℚ) ≤ m)
    (h2 : m < z + 1 / 2) : roundIntNE m = z := by
  have hf : ⌊m⌋ = z := Int.floor_eq_iff.mpr ⟨h1, by linarith⟩
  rw [roundIntNE, hf]
  rw [if_pos (by linarith)]

theorem roundIntNE_up (m : ℚ) (z : ℤ) (h1 : (z : ℚ) + 1 / 2 < m)
    (h2 : m < z + 1) : roundIntNE m = z + 1 := by
  have hf : ⌊m⌋ = z := Int.floor_eq_iff.mpr ⟨by linarith, h2⟩
  rw [roundIntNE, hf]
  rw [if_neg (by linarith), if_pos (by linarith)]

theorem f32round_pos (q : ℚ) (hq : 0 < q) :
    f32round q =
      roundIntNE (q / 2 ^ (Int.log 2 q - 23)) * 2 ^ (Int.log 2 q - 23) := by
  rw [f32round, if_neg hq.ne', if_neg (not_lt.mpr hq.le), abs_of_pos hq,
    one_mul]

theorem f32round_eq_self (q : ℚ) (z : ℤ) (hq : 0 < q)
    (hz : q = (z : ℚ) * 2 ^ (Int.log 2 q - 23)) : f32round q = q := by
  rw [f32round_pos q hq]
  set e := Int.log 2 q with he
  have hne : ((2 : ℚ) ^ (e - 23)) ≠ 0 := by positivity
  have hm : q / 2 ^ (e - 23) = (z : ℚ) := by
    rw [hz, mul_div_assoc, div_self hne, mul_one]
  rw [hm, roundIntNE_intCast, ← hz]

/-- C7 counterexample: in the f32 arithmetic the program actually uses,
the depths of stack positions 2 and 3 coincide for n = 2 ^ 23 pieces:
the depth assignment is not strictly decreasing with no ties for every
frame with n ≥ 1 pieces. -/
theorem sort_pieces_depths_counterexample :
    1 ≤ 8388608 ∧ 2 < 3 ∧ 3 < 8388608 ∧
      sort_depth 8388608 2 = sort_depth 8388608 3 ∧
      ¬ (sort_depth 8388608 3 < sort_depth 8388608 2) := by
  have l400 : Int.log 2 (400 : ℚ) = 8 :=
    int_log_two_eq _ _ (by norm_num) (by norm_num) (by norm_num)
  have s1 : sub32 MAX_PIECE_HEIGHT MIN_PIECE_HEIGHT = 400 := by
    rw [sub32, show MAX_PIECE_HEIGHT - MIN_PIECE_HEIGHT = (400 : ℚ) by
      rw [MAX_PIECE_HEIGHT, MIN_PIECE_HEIGHT]; norm_num]
    exact f32round_eq_self 400 13107200 (by norm_num) (by rw [l400]; norm_num)
  have lN : Int.log 2 (8388608 : ℚ) = 23 :=
    int_log_two_eq _ _ (by norm_num) (by norm_num) (by norm_num)
  have s2 : f32round ((8388608 : ℕ) : ℚ) = 8388608 := by
    rw [show ((8388608 : ℕ) : ℚ) = 8388608 by norm_num]
    exact f32round_eq_self _ 8388608 (by norm_num) (by rw [lN]; norm_num)
  have lz : Int.log 2 (25 / 524288 : ℚ) = -15 :=
    int_log_two_eq _ _ (by norm_num) (by norm_num) (by norm_num)
  have s3 : z_step 8388608 = 25 / 524288 := by
    rw [z_step, s1, s2, div32,
      show (400 : ℚ) / 8388608 = 25 / 524288 by norm_num]
    exact f32round_eq_self _ 13107200 (by norm_num) (by rw [lz]; norm_num)
  have l2 : Int.log 2 (2 : ℚ) = 1 :=
    int_log_two_eq _ _ (by norm_num) (by norm_num) (by norm_num)
  have s4 : f32round ((2 : ℕ) : ℚ) = 2 := by
    rw [show ((2 : ℕ) : ℚ) = 2 by norm_num]
    exact f32round_eq_self _ 8388608 (by norm_num) (by rw [l2]; norm_num)
  have l3 : Int.log 2 (3 : ℚ) = 1 :=
    int_log_two_eq _ _ (by norm_num) (by norm_num) (by norm_num)
  have s4' : f32round ((3 : ℕ) : ℚ) = 3 := by
    rw [show ((3 : ℕ) : ℚ) = 3 by norm_num]
    exact f32round_eq_self _ 12582912 (by norm_num) (by rw [l3]; norm_num)
  have lm2 : Int.log 2 (25 / 262144 : ℚ) = -14 :=
    int_log_two_eq _ _ (by norm_num) (by norm_num) (by norm_num)
  have s5 : mul32 2 (25 / 524288) = 25 / 262144 := by
    rw [mul32, show (2 : ℚ) * (25 / 524288) = 25 / 262144 by norm_num]
    exact f32round_eq_self _ 13107200 (by norm_num) (by rw [lm2]; norm_num)
  have lm3 : Int.log 2 (75 / 524288 : ℚ) = -13 :=
    int_log_two_eq _ _ (by norm_num) (by norm_num) (by norm_num)
  have s5' : mul32 3 (25 / 524288) = 75 / 524288 := by
    rw [mul32, show (3 : ℚ) * (25 / 524288) = 75 / 524288 by norm_num]
    exact f32round_eq_self _ 9830400 (by norm_num) (by rw [lm3]; norm_num)
  have lq2 : Int.log 2 (235929575 / 262144 : ℚ) = 9 :=
    int_log_two_eq _ _ (by norm_num) (by norm_num) (by norm_num)
  have s6 : sub32 MAX_PIECE_HEIGHT (25 / 262144) = 7372799 / 8192 := by
    rw [sub32, show MAX_PIECE_HEIGHT - 25 / 262144 = (235929575 / 262144 : ℚ)
      by rw [MAX_PIECE_HEIGHT]; norm_num]
    rw [f32round_pos _ (by norm_num), lq2,
      show (235929575 / 262144 : ℚ) / 2 ^ ((9 : ℤ) - 23) = 235929575 / 16
        by norm_num,
      roundIntNE_down _ 14745598 (by norm_num) (by norm_num)]
    norm_num
  have lq3 : Int.log 2 (471859125 / 524288 : ℚ) = 9 :=
    int_log_two_eq _ _ (by norm_num) (by norm_num) (by norm_num)
  have s6' : sub32 MAX_PIECE_HEIGHT (75 / 524288) = 7372799 / 8192 := by
    rw [sub32, show MAX_PIECE_HEIGHT - 75 / 524288 = (471859125 / 524288 : ℚ)
      by rw [MAX_PIECE_HEIGHT]; norm_num]
    rw [f32round_pos _ (by norm_num), lq3,
      show (471859125 / 524288 : ℚ) / 2 ^ ((9 : ℤ) - 23) = 471859125 / 32
        by norm_num,
      roundIntNE_up _ 14745597 (by norm_num) (by norm_num)]
    norm_num
  have key2 : sort_depth 8388608 2 = 7372799 / 8192 := by
    rw [sort_depth, s4, s3, s5, s6]
  have key3 : sort_depth 8388608 3 = 7372799 / 8192 := by
    rw [sort_depth, s4', s3, s5', s6']
  refine ⟨by norm_num, by norm_num, by norm_num, by rw [key2, key3], ?_⟩
  rw [key2, key3]
  exact lt_irrefl _

/-- C7 (amended): in the exact arithmetic the interpolation formula
denotes, the depths of stack positions 0..n-1 are strictly decreasing
front to back, with no ties, and all lie in the closed interval between
MIN_PIECE_HEIGHT and MAX_PIECE_HEIGHT, for every n ≥ 1; in the f32
arithmetic the program executes this fails for very large n, where
adjacent positions can round to the same depth (see the
counterexample at n = 2 ^ 23). -/
theorem sort_pieces_depths (n : Nat) (hn : 1 ≤ n) :
    (∀ i j, i < j → j < n → sort_depth_exact n j < sort_depth_exact n i) ∧
    (∀ i, i < n →
      MIN_PIECE_HEIGHT ≤ sort_depth_exact n i ∧
        sort_depth_exact n i ≤ MAX_PIECE_HEIGHT) := by
  have hn0 : (0 : ℚ) < n := by exact_mod_cast hn
  have hz : z_step_exact n = 400 / n := by
    unfold z_step_exact MAX_PIECE_HEIGHT MIN_PIECE_HEIGHT
    norm_num
  have hstep : 0 < z_step_exact n := by
    rw [hz]
    positivity
  constructor
  · intro i j hij hjn
    unfold sort_depth_exact
    have hmul : (i : ℚ) * z_step_exact n < j * z_step_exact n := by
      apply mul_lt_mul_of_pos_right _ hstep
      exact_mod_cast hij
    linarith
  · intro i hin
    have hiq : (i : ℚ) ≤ n := le_of_lt (by exact_mod_cast hin)
    have h1 : (i : ℚ) * z_step_exact n ≤ (n : ℚ) * z_step_exact n :=
      mul_le_mul_of_nonneg_right hiq hstep.le
    have h2 : (n : ℚ) * z_step_exact n = 400 := by
      rw [hz]
      field_simp
    have h3 : 0 ≤ (i : ℚ) * z_step_exact n := by positivity
    unfold sort_depth_exact MIN_PIECE_HEIGHT MAX_PIECE_HEIGHT
    constructor <;> linarith

/-- A witness for sort_pieces_depths with four pieces: position 1 is
deeper stacked than position 0, and the last position stays in range. -/
theorem sort_pieces_depths_witness :
    sort_depth_exact 4 1 < sort_depth_exact 4 0 ∧
      MIN_PIECE_HEIGHT ≤ sort_depth_exact 4 3 ∧
        sort_depth_exact 4 3 ≤ MAX_PIECE_HEIGHT := by
  obtain ⟨h1, h2⟩ := sort_pieces_depths 4 (by norm_num)
  exact ⟨h1 0 1 (by norm_num) (by norm_num), h2 3 (by norm_num)⟩

/-! ## Session phases and the download handshake (network.rs)

download_puzzle runs once per frame while the session is Downloading.
It polls the inbound channel without blocking: a message that
deserializes as a Puzzle is installed and the phase moves to Cutting;
any other message is logged and dropped with the phase unchanged; an
empty open channel does nothing; a disconnected channel moves the phase
back to Connecting.  The channel is modelled by the list of messages it
still holds plus a closed flag, and Puzzle.deserialize (game crate) is a
parameter. -/

/-- The AppState phase machine of the client. -/
inductive AppState
  | Connecting
  | Downloading
  | Cutting
  | Playing
deriving DecidableEq

/-- Session state seen by download_puzzle: phase, the buffered inbound
channel with its closed flag, and the installed puzzle resource. -/
structure DownloadState (P : Type) where
  phase : AppState
  inbox : List String
  closed : Bool
  puzzle : Option P

/-- Embeds one run of the download_puzzle system.  try_recv yields the
first buffered message if any; on an empty channel it yields Empty when
open (no state change) and Disconnected when closed (phase back to
Connecting). -/
def download_puzzle {P : Type} (de : String → Option P)
    (st : DownloadState P) : DownloadState P :=
  match st.inbox with
  | msg :: rest =>
    match de msg with
    | some puz =>
      { st with inbox := rest, puzzle := some puz, phase := AppState.Cutting }
    | none => { st with inbox := rest }
  | [] =>
    if st.closed then { st with phase := AppState.Connecting } else st

/-- One frame of the bevy schedule: download_puzzle runs only while the
phase is Downloading. -/
def download_tick {P : Type} (de : String → Option P)
    (st : DownloadState P) : DownloadState P :=
  if st.phase = AppState.Downloading then download_puzzle de st else st

/-- Iterated frames of the download phase. -/
def download_run {P : Type} (de : String → Option P) :
    Nat → DownloadState P → DownloadState P
  | 0, st => st
  | k + 1, st => download_run de k (download_tick de st)

/-- C8: during Downloading a message that does not deserialize as a
puzzle is discarded with the phase unchanged; a closed drained channel
sends the session back to Connecting; and the first buffered message
that does deserialize installs the puzzle and moves the session to
Cutting, the session staying in Downloading until then. -/
theorem download_handshake {P : Type} (de : String → Option P) :
    (∀ st : DownloadState P, ∀ msg rest,
      st.phase = AppState.Downloading → st.inbox = msg :: rest →
      de msg = none → download_puzzle de st = { st with inbox := rest }) ∧
    (∀ st : DownloadState P,
      st.phase = AppState.Downloading → st.inbox = [] → st.closed = true →
      download_puzzle de st = { st with phase := AppState.Connecting }) ∧
    (∀ st : DownloadState P, ∀ bad msg rest p,
      st.phase = AppState.Downloading → st.inbox = bad ++ msg :: rest →
      (∀ b ∈ bad, de b = none) → de msg = some p →
      (∀ k, k ≤ bad.length →
        (download_run de k st).phase = AppState.Downloading) ∧
      (download_run de (bad.length + 1) st).phase = AppState.Cutting ∧
      (download_run de (bad.length + 1) st).puzzle = some p) := by
  have hdrop : ∀ st : DownloadState P, ∀ msg rest,
      st.inbox = msg :: rest → de msg = none →
      download_puzzle de st = { st with inbox := rest } := by
    intro st msg rest hin hde
    obtain ⟨ph, inb, cl, pz⟩ := st
    dsimp only at hin
    subst hin
    unfold download_puzzle
    dsimp only
    rw [hde]
  refine ⟨fun st msg rest _ hin hde => hdrop st msg rest hin hde,
    fun st _ hin hcl => ?_, fun st bad => ?_⟩
  · obtain ⟨ph, inb, cl, pz⟩ := st
    dsimp only at hin hcl
    subst hin
    subst hcl
    unfold download_puzzle
    rfl
  · induction bad generalizing st with
    | nil =>
      intro msg rest p hph hin hbad hde
      rw [List.nil_append] at hin
      have h1 : download_run de 1 st =
          { st with
            inbox := rest, puzzle := some p, phase := AppState.Cutting } := by
        show download_tick de st = _
        unfold download_tick
        rw [if_pos hph]
        obtain ⟨ph, inb, cl, pz⟩ := st
        dsimp only at hin
        subst hin
        unfold download_puzzle
        dsimp only
        rw [hde]
      refine ⟨fun k hk => ?_, ?_, ?_⟩
      · obtain rfl := Nat.le_zero.mp hk
        exact hph
      · rw [show ([] : List String).length + 1 = 1 from rfl, h1]
      · rw [show ([] : List String).length + 1 = 1 from rfl, h1]
    | cons b bs ih =>
      intro msg rest p hph hin hbad hde
      rw [List.cons_append] at hin
      have htick : download_tick de st =
          { st with inbox := bs ++ msg :: rest } := by
        unfold download_tick
        rw [if_pos hph]
        exact hdrop st b (bs ++ msg :: rest) hin (hbad b (List.mem_cons_self b bs))
      obtain ⟨ihk, ihc, ihp⟩ := ih { st with inbox := bs ++ msg :: rest }
        msg rest p hph rfl (fun b' hb' => hbad b' (List.mem_cons_of_mem b hb')) hde
      refine ⟨fun k hk => ?_, ?_, ?_⟩
      · cases k with
        | zero => exact hph
        | succ k' =>
          show (download_run de k' (download_tick de st)).phase = _
          rw [htick]
          exact ihk k' (by simpa using hk)
      · show (download_run de (bs.length + 1) (download_tick de st)).phase = _
        rw [htick]
        exact ihc
      · show (download_run de (bs.length + 1) (download_tick de st)).puzzle = _
        rw [htick]
        exact ihp

/-- A witness for download_handshake: with one undecodable message ahead
of a valid puzzle, the session is still Downloading after one frame and
is Cutting with the puzzle installed after two. -/
theorem download_handshake_witness :
    (download_run (fun s => if s = "puzzle" then some 42 else none) 1
      ⟨AppState.Downloading, ["junk", "puzzle"], false, none⟩).phase =
      AppState.Downloading ∧
    (download_run (fun s => if s = "puzzle" then some 42 else none) 2
      ⟨AppState.Downloading, ["junk", "puzzle"], false, none⟩).phase =
      AppState.Cutting ∧
    (download_run (fun s => if s = "puzzle" then some 42 else none) 2
      ⟨AppState.Downloading, ["junk", "puzzle"], false, none⟩).puzzle =
      some 42 := by
  obtain ⟨hk, hc, hp⟩ :=
    (download_handshake (fun s => if s = "puzzle" then some (42 : Nat) else none)).2.2
    ⟨AppState.Downloading, ["junk", "puzzle"], false, none⟩
    ["junk"] "puzzle" [] 42 rfl rfl
    (by intro b hb; rw [List.mem_singleton] at hb; subst hb; decide)
    (by decide)
  exact ⟨hk 1 (by norm_num), hc, hp⟩
/-! ## Transport worker (network.rs, spawn_network_io_task)

The worker runs two cooperatively scheduled loops over one websocket:
the receive loop (net_rx_handler) forwards text frames to the inbound
channel through client_tx.send(msg).unwrap(), drops binary frames, and
exits on socket close or on the one-shot disconnect signal; the send
loop (net_tx_handler) writes each outbound message as a text frame,
breaks on write failure, and fires the disconnect signal when it ends.
The worker awaits the join of both.

The embedding is a labelled small-step transition relation: one label
per loop, so each transition is an instruction of exactly one loop.  The
socket is modelled by the list of frames it will still deliver plus a
closed flag, and by a write budget: the number of writes that still
succeed before the connection starts failing (a failed write keeps
failing).  The consumer side is modelled by two flags: outClosed (the
consumer dropped its outbound sender) and inClosed (the consumer
dropped its inbound receiver, as happens when the Worker resource is
replaced on reconnect).  Delivering a text frame into a closed inbound
channel makes the delivery unwrap panic; the panic unwinds the joined
pair, so the whole worker dies at once (the panicked flag), whatever
state either loop was in.  A loop with no rule applicable is blocked,
awaiting I/O. -/

/-- A websocket frame: text or binary. -/
inductive WsMsg
  | text (s : String)
  | binary (s : String)

/-- The worker state: both channel ends, the socket, the one-shot
disconnect signal, the two loop-exited flags, and whether the delivery
unwrap has panicked. -/
structure WorkerState where
  outbox : List String
  outClosed : Bool
  inbox : List WsMsg
  sockClosed : Bool
  inClosed : Bool
  writeBudget : Nat
  written : List String
  delivered : List String
  sendDone : Bool
  recvDone : Bool
  signalFired : Bool
  panicked : Bool

/-- Which of the two worker loops takes a step. -/
inductive Loop
  | send
  | recv
deriving DecidableEq

/-- Labelled small-step semantics of the worker loop pair.  A panicked
worker has been unwound and takes no step at all. -/
inductive WStep : WorkerState → Loop → WorkerState → Prop
  | sendMsg (s : WorkerState) (m : String) (rest : List String)
      (hal : s.panicked = false)
      (hrun : s.sendDone = false) (hout : s.outbox = m :: rest)
      (hbudget : 0 < s.writeBudget) :
      WStep s Loop.send
        { s with
          outbox := rest, writeBudget := s.writeBudget - 1,
          written := s.written ++ [m] }
  | sendFail (s : WorkerState) (m : String) (rest : List String)
      (hal : s.panicked = false)
      (hrun : s.sendDone = false) (hout : s.outbox = m :: rest)
      (hbudget : s.writeBudget = 0) :
      WStep s Loop.send
        { s with sendDone := true, signalFired := true }
  | sendChanClosed (s : WorkerState)
      (hal : s.panicked = false)
      (hrun : s.sendDone = false) (hout : s.outbox = [])
      (hclosed : s.outClosed = true) :
      WStep s Loop.send
        { s with sendDone := true, signalFired := true }
  | recvText (s : WorkerState) (m : String) (rest : List WsMsg)
      (hal : s.panicked = false)
      (hrun : s.recvDone = false) (hin : s.inbox = WsMsg.text m :: rest)
      (hopen : s.inClosed = false) :
      WStep s Loop.recv
        { s with inbox := rest, delivered := s.delivered ++ [m] }
  | recvPanic (s : WorkerState) (m : String) (rest : List WsMsg)
      (hal : s.panicked = false)
      (hrun : s.recvDone = false) (hin : s.inbox = WsMsg.text m :: rest)
      (hclosed : s.inClosed = true) :
      WStep s Loop.recv
        { s with panicked := true }
  | recvBinary (s : WorkerState) (m : String) (rest : List WsMsg)
      (hal : s.panicked = false)
      (hrun : s.recvDone = false) (hin : s.inbox = WsMsg.binary m :: rest) :
      WStep s Loop.recv
        { s with inbox := rest }
  | recvSockClosed (s : WorkerState)
      (hal : s.panicked = false)
      (hrun : s.recvDone = false) (hin : s.inbox = [])
      (hclosed : s.sockClosed = true) :
      WStep s Loop.recv
        { s with recvDone := true }
  | recvSignal (s : WorkerState)
      (hal : s.panicked = false)
      (hrun : s.recvDone = false) (hsig : s.signalFired = true) :
      WStep s Loop.recv
        { s with recvDone := true }

/-- A loop can take a step from this state. -/
def Enabled (s : WorkerState) (l : Loop) : Prop := ∃ s', WStep s l s'

/-- No loop can take a step: both loops have exited, or are suspended on
channel or socket availability, or the worker has panicked. -/
def Blocked (s : WorkerState) : Prop := ∀ l s', ¬ WStep s l s'

/-- The join of the two loops has completed: the worker task is done. -/
def workerDone (s : WorkerState) : Prop :=
  s.sendDone = true ∧ s.recvDone = true

/-- The worker task has terminated: either the join of the two loops
completed, or the delivery unwrap panicked and unwound the pair. -/
def workerTerminated (s : WorkerState) : Prop :=
  workerDone s ∨ s.panicked = true

/-- Reachability along any interleaving of the two loops. -/
inductive WReaches : WorkerState → WorkerState → Prop
  | refl (s : WorkerState) : WReaches s s
  | step (s₁ s₂ s₃ : WorkerState) (l : Loop) :
      WStep s₁ l s₂ → WReaches s₂ s₃ → WReaches s₁ s₃

theorem wstep_send_flags (s : WorkerState) (l : Loop) (s' : WorkerState)
    (h : WStep s l s') :
    (l = Loop.recv → s'.sendDone = s.sendDone ∧
      s'.signalFired = s.signalFired) ∧
    (s.sendDone = true → s'.sendDone = true) ∧
    (s.signalFired = true → s'.signalFired = true) := by
  cases h <;> simp_all

/-- C9 counterexample: with the consumer side of the inbound channel
dropped (as happens once the Worker resource is replaced on reconnect)
and a text frame pending, one receive-loop step panics the delivery
unwrap and terminates the whole worker while the send loop has not
exited: the worker does not terminate only once both loops have exited,
and the send loop is killed non-cooperatively while it runs. -/
theorem worker_shutdown_counterexample :
    WStep
      ⟨[], false, [WsMsg.text "m"], false, true, 5, [], [],
        false, false, false, false⟩
      Loop.recv
      ⟨[], false, [WsMsg.text "m"], false, true, 5, [], [],
        false, false, false, true⟩ ∧
    (⟨[], false, [WsMsg.text "m"], false, true, 5, [], [],
        false, false, false, false⟩ : WorkerState).sendDone = false ∧
    (⟨[], false, [WsMsg.text "m"], false, true, 5, [], [],
        false, false, false, true⟩ : WorkerState).sendDone = false ∧
    (⟨[], false, [WsMsg.text "m"], false, true, 5, [], [],
        false, false, false, true⟩ : WorkerState).recvDone = false ∧
    workerTerminated
      ⟨[], false, [WsMsg.text "m"], false, true, 5, [], [],
        false, false, false, true⟩ :=
  ⟨WStep.recvPanic _ "m" [] rfl rfl rfl rfl, rfl, rfl, rfl, Or.inr rfl⟩

/-- C9 (amended): transport worker shutdown is cooperative and mutual as
long as the delivery unwrap does not panic, that is, as long as the
consumer keeps the receiving end of the inbound channel open.  Each loop
exit flag is set only by a step of that same loop; the one-shot signal
is fired exactly by the final step of the send loop; a write failure
ends the send loop and fires the signal; once the signal is fired a
non-panicked receive loop always has an exit step available, so a
blocked non-panicked state has the receive loop exited; the only step
that panics the worker is the receive-loop delivery into a closed
inbound channel; and after the send loop ends with the signal fired,
any blocked reachable state either has both loops exited (workerDone,
the join) or has died of that delivery panic. -/
theorem worker_shutdown :
    (∀ s l s', WStep s l s' →
      (s.sendDone = false → s'.sendDone = true → l = Loop.send) ∧
      (s.recvDone = false → s'.recvDone = true → l = Loop.recv)) ∧
    (∀ s l s', WStep s l s' →
      s.signalFired = false → s'.signalFired = true →
      l = Loop.send ∧ s'.sendDone = true) ∧
    (∀ s s', s.sendDone = false → s.outbox ≠ [] → s.writeBudget = 0 →
      WStep s Loop.send s' →
      s'.sendDone = true ∧ s'.signalFired = true) ∧
    (∀ s : WorkerState, s.panicked = false → s.signalFired = true →
      s.recvDone = false → Enabled s Loop.recv) ∧
    (∀ s : WorkerState, Blocked s → s.panicked = false →
      s.signalFired = true → s.recvDone = true) ∧
    (∀ s l s', WStep s l s' → s.panicked = false → s'.panicked = true →
      l = Loop.recv ∧ s.inClosed = true) ∧
    (∀ s s', WReaches s s' → s.sendDone = true → s.signalFired = true →
      Blocked s' → workerDone s' ∨ s'.panicked = true) := by
  have hmono : ∀ s s', WReaches s s' → s.sendDone = true →
      s.signalFired = true → s'.sendDone = true ∧ s'.signalFired = true := by
    intro s s' hr
    induction hr with
    | refl s => exact fun h1 h2 => ⟨h1, h2⟩
    | step s₁ s₂ s₃ l hst _ ih =>
      intro h1 h2
      obtain ⟨_, hs, hf⟩ := wstep_send_flags s₁ l s₂ hst
      exact ih (hs h1) (hf h2)
  have henabled : ∀ s : WorkerState, s.panicked = false →
      s.signalFired = true → s.recvDone = false → Enabled s Loop.recv := by
    intro s hal hsig hrun
    exact ⟨_, WStep.recvSignal s hal hrun hsig⟩
  have hblocked : ∀ s : WorkerState, Blocked s → s.panicked = false →
      s.signalFired = true → s.recvDone = true := by
    intro s hb hal hsig
    by_contra hrd
    have hrun : s.recvDone = false := by
      cases hdr : s.recvDone
      · rfl
      · exact absurd hdr hrd
    obtain ⟨s', hs'⟩ := henabled s hal hsig hrun
    exact hb Loop.recv s' hs'
  refine ⟨?_, ?_, ?_, henabled, hblocked, ?_, ?_⟩
  · intro s l s' h
    cases h <;> simp_all
  · intro s l s' h
    cases h <;> simp_all
  · intro s s' hrun hout hbudget h
    cases h with
    | sendMsg m rest h0 h1 h2 h3 => omega
    | sendFail m rest h0 h1 h2 h3 => simp
    | sendChanClosed h0 h1 h2 h3 => exact absurd h2 hout
  · intro s l s' h
    cases h <;> simp_all
  · intro s s' hr h1 h2 hb
    obtain ⟨hs, hf⟩ := hmono s s' hr h1 h2
    cases hp : s'.panicked with
    | true => exact Or.inr rfl
    | false => exact Or.inl ⟨hs, hblocked s' hb hp hf⟩

/-- A witness for worker_shutdown: with the signal fired, no panic, and
the receive loop still running, an exit step of the receive loop is
enabled. -/
theorem worker_shutdown_witness :
    Enabled
      ⟨[], false, [], false, false, 0, [], [], true, false, true, false⟩
      Loop.recv :=
  worker_shutdown.2.2.2.1
    ⟨[], false, [], false, false, 0, [], [], true, false, true, false⟩
    rfl rfl rfl
/-! ## Event relay (network.rs, event_io)

event_io runs once per frame while the session is Playing.  Its state is
modelled by the seven per-category event queues (bevy Events, an
append-only list per category), the per-category read cursor of the
event_io consumer (its ManualEventReader), the puzzle resource, the
remaining number of sends the outbound channel still accepts before it
starts failing (a disconnected channel keeps failing), the transcript of
serialized messages handed to the transport worker, and the phase.

A tick does, in order: (1) outbound - for each category in the fixed
source order, iterate the events after the cursor, serialize and send
each; a failing send sets the phase to Connecting and returns from the
system at once; (2) inbound - drain the buffered inbound messages,
deserialize each (a failure is the unwrap panic, modelled as none), and
apply each to the puzzle, collecting derived events; (3) dispatch -
append every derived event to its category queue in order; (4) cursor
advance - clear every reader to the end of its queue.  The event payload
types, their serialization, and Puzzle.apply_event live in the game
crate and enter as parameters.  Each tick also produces a TickLog
recording, per category, the cursor at the start of the outbound phase
(fwdStart), how many events were successfully forwarded (fwdCount), the
queue length at dispatch time (dispStart) and how many events were
dispatched (dispCount), so that forwarding and dispatch can be spoken of
positionally. -/

/-- The seven event categories, one per event variant. -/
inductive Cat
  | pieceMoved
  | piecePickedUp
  | piecePutDown
  | pieceConnectionCheck
  | pieceConnection
  | playerCursorMoved
  | playerDisconnected
deriving DecidableEq

/-- The fixed forwarding order of event_io. -/
def catOrder : List Cat :=
  [Cat.pieceMoved, Cat.piecePickedUp, Cat.piecePutDown,
   Cat.pieceConnectionCheck, Cat.pieceConnection, Cat.playerCursorMoved,
   Cat.playerDisconnected]

theorem catOrder_complete : ∀ c : Cat, c ∈ catOrder := by
  intro c
  cases c <;> decide

theorem catOrder_nodup : catOrder.Nodup := by decide

/-- Pointwise update of a per-category table. -/
def updateCat {α : Type} (f : Cat → α) (c : Cat) (v : α) : Cat → α :=
  fun d => if d = c then v else f d

/-- The state of the playing session as seen by event_io. -/
structure RelayState (E P : Type) where
  queues : Cat → List E
  cursors : Cat → Nat
  puzzle : P
  budget : Nat
  sent : List String
  phase : AppState

/-- Result of forwarding the pending slice of one category: how many
events the reader iterated (cursor advance), how many were successfully
sent, the serialized payloads sent, whether every send succeeded, and
the remaining send budget. -/
structure ForwardResult where
  consumed : Nat
  sentCount : Nat
  sentMsgs : List String
  ok : Bool
  budget : Nat

/-- Embeds the forward_events macro body: iterate the pending events,
sending each serialized event; the first failing send stops the
iteration (the failing event was consumed from the reader but not
sent). -/
def forward_events {E : Type} (ser : E → String) (budget : Nat) :
    List E → ForwardResult
  | [] => ⟨0, 0, [], true, budget⟩
  | e :: rest =>
    match budget with
    | 0 => ⟨1, 0, [], false, 0⟩
    | b + 1 =>
      let r := forward_events ser b rest
      ⟨r.consumed + 1, r.sentCount + 1, ser e :: r.sentMsgs, r.ok, r.budget⟩

/-- Per-tick instrumentation of event_io (see section comment). -/
structure TickLog where
  fwdStart : Cat → Nat
  fwdCount : Cat → Nat
  dispStart : Cat → Nat
  dispCount : Cat → Nat
  ok : Bool
  ran : Bool

/-- Queue position p of category c was successfully forwarded to the
peer during the logged tick. -/
def Forwarded (L : TickLog) (c : Cat) (p : Nat) : Prop :=
  L.fwdStart c ≤ p ∧ p < L.fwdStart c + L.fwdCount c

/-- Queue position p of category c was appended by the dispatch phase of
the logged tick. -/
def Dispatched (L : TickLog) (c : Cat) (p : Nat) : Prop :=
  L.dispStart c ≤ p ∧ p < L.dispStart c + L.dispCount c

instance (L : TickLog) (c : Cat) (p : Nat) : Decidable (Forwarded L c p) :=
  inferInstanceAs
    (Decidable (L.fwdStart c ≤ p ∧ p < L.fwdStart c + L.fwdCount c))

instance (L : TickLog) (c : Cat) (p : Nat) : Decidable (Dispatched L c p) :=
  inferInstanceAs
    (Decidable (L.dispStart c ≤ p ∧ p < L.dispStart c + L.dispCount c))

/-- Forward the pending slice of one category: run forward_events on the
events after the cursor, advance the cursor by what the reader iterated,
and log the start cursor and the sent count.  The Bool is whether every
send succeeded. -/
def forwardCat {E P : Type} (ser : E → String) (st : RelayState E P)
    (L : TickLog) (c : Cat) : RelayState E P × TickLog × Bool :=
  let r := forward_events ser st.budget ((st.queues c).drop (st.cursors c))
  ({ st with
      cursors := updateCat st.cursors c (st.cursors c + r.consumed),
      budget := r.budget, sent := st.sent ++ r.sentMsgs },
   { L with
      fwdStart := updateCat L.fwdStart c (st.cursors c),
      fwdCount := updateCat L.fwdCount c r.sentCount },
   r.ok)

/-- The outbound phase: process the categories in order, returning from
the whole system on the first failing send with the phase set to
Connecting. -/
def outboundPhase {E P : Type} (ser : E → String) :
    List Cat → RelayState E P → TickLog → RelayState E P × TickLog
  | [], st, L => (st, L)
  | c :: cs, st, L =>
    if (forwardCat ser st L c).2.2 then
      outboundPhase ser cs (forwardCat ser st L c).1 (forwardCat ser st L c).2.1
    else
      ({ (forwardCat ser st L c).1 with phase := AppState.Connecting },
       { (forwardCat ser st L c).2.1 with ok := false })

/-- The inbound phase: deserialize each drained message and apply it to
the puzzle, collecting the derived events in order; a message that does
not deserialize is the fatal unwrap, modelled as none. -/
def inboundPhase {E P : Type} (de : String → Option E)
    (apply_event : P → E → P × List E) :
    List String → P → Option (P × List E)
  | [], puz => some (puz, [])
  | msg :: rest, puz =>
    (de msg).bind (fun ev =>
      (inboundPhase de apply_event rest (apply_event puz ev).1).map
        (fun pr => (pr.1, (apply_event puz ev).2 ++ pr.2)))

/-- The dispatch phase: append every derived event to the queue of its
category, in the order produced. -/
def dispatchPhase {E : Type} (catOf : E → Cat) :
    List E → (Cat → List E) → (Cat → List E)
  | [], queues => queues
  | e :: rest, queues =>
    dispatchPhase catOf rest
      (updateCat queues (catOf e) (queues (catOf e) ++ [e]))

/-- The log a tick starts from: cursors as they stand, queue lengths as
they stand, nothing forwarded or dispatched yet. -/
def initLog {E P : Type} (st : RelayState E P) : TickLog :=
  ⟨st.cursors, fun _ => 0, fun c => (st.queues c).length, fun _ => 0,
    true, true⟩

/-- Embeds one run of the event_io system.  none models the panic of the
deserialize unwrap on a malformed inbound message. -/
def event_io {E P : Type} (ser : E → String) (de : String → Option E)
    (catOf : E → Cat) (apply_event : P → E → P × List E)
    (st : RelayState E P) (inbox : List String) :
    Option (RelayState E P × TickLog) :=
  if (outboundPhase ser catOrder st (initLog st)).2.ok then
    match inboundPhase de apply_event inbox
        (outboundPhase ser catOrder st (initLog st)).1.puzzle with
    | none => none
    | some pr =>
      some ({ (outboundPhase ser catOrder st (initLog st)).1 with
          puzzle := pr.1,
          queues := dispatchPhase catOf pr.2
            (outboundPhase ser catOrder st (initLog st)).1.queues,
          cursors := fun c => (dispatchPhase catOf pr.2
            (outboundPhase ser catOrder st (initLog st)).1.queues c).length },
        { (outboundPhase ser catOrder st (initLog st)).2 with
          dispCount := fun c =>
            pr.2.countP (fun e => decide (catOf e = c)) })
  else
    some ((outboundPhase ser catOrder st (initLog st)).1,
      (outboundPhase ser catOrder st (initLog st)).2)

/-- One frame of the outer schedule: the local events other systems
appended this frame, and the inbound messages that arrived. -/
structure Round (E : Type) where
  locals : List E
  inbox : List String

/-- Log of a frame in which event_io did not run (phase not Playing). -/
def skipLog {E P : Type} (st : RelayState E P) : TickLog :=
  ⟨st.cursors, fun _ => 0, fun c => (st.queues c).length, fun _ => 0,
    true, false⟩

/-- One frame: local events are appended to their queues, then event_io
runs if and only if the session is Playing. -/
def applyRound {E P : Type} (ser : E → String) (de : String → Option E)
    (catOf : E → Cat) (apply_event : P → E → P × List E)
    (st : RelayState E P) (rd : Round E) :
    Option (RelayState E P × TickLog) :=
  if st.phase = AppState.Playing then
    event_io ser de catOf apply_event
      { st with queues := dispatchPhase catOf rd.locals st.queues } rd.inbox
  else some (st, skipLog st)

/-- A whole run of frames, collecting the tick logs. -/
def runRounds {E P : Type} (ser : E → String) (de : String → Option E)
    (catOf : E → Cat) (apply_event : P → E → P × List E) :
    List (Round E) → RelayState E P →
    Option (RelayState E P × List TickLog)
  | [], st => some (st, [])
  | rd :: rds, st =>
    (applyRound ser de catOf apply_event st rd).bind (fun pr =>
      (runRounds ser de catOf apply_event rds pr.1).map (fun pr2 =>
        (pr2.1, pr.2 :: pr2.2)))

/-- The cursor of every category points into its queue. -/
def Inv {E P : Type} (st : RelayState E P) : Prop :=
  ∀ c, st.cursors c ≤ (st.queues c).length

theorem forward_events_spec {E : Type} (ser : E → String) (budget : Nat)
    (l : List E) :
    (forward_events ser budget l).sentCount ≤
        (forward_events ser budget l).consumed ∧
      (forward_events ser budget l).consumed ≤ l.length ∧
      ((forward_events ser budget l).ok = true →
        (forward_events ser budget l).sentCount = l.length ∧
        (forward_events ser budget l).consumed = l.length) := by
  induction l generalizing budget with
  | nil => simp [forward_events]
  | cons e rest ih =>
    cases budget with
    | zero => simp [forward_events]
    | succ b =>
      obtain ⟨h1, h2, h3⟩ := ih b
      simp only [forward_events, List.length_cons]
      refine ⟨by omega, by omega, fun hok => ?_⟩
      obtain ⟨h4, h5⟩ := h3 hok
      omega

theorem dispatchPhase_spec {E : Type} (catOf : E → Cat) (evs : List E)
    (queues : Cat → List E) (c : Cat) :
    dispatchPhase catOf evs queues c =
      queues c ++ evs.filter (fun e => decide (catOf e = c)) := by
  induction evs generalizing queues with
  | nil => simp [dispatchPhase]
  | cons e rest ih =>
    rw [dispatchPhase, ih]
    by_cases hc : catOf e = c
    · subst hc
      simp [updateCat, List.filter_cons]
    · simp [updateCat, List.filter_cons, hc, Ne.symm hc]

theorem dispatchPhase_length {E : Type} (catOf : E → Cat) (evs : List E)
    (queues : Cat → List E) (c : Cat) :
    (dispatchPhase catOf evs queues c).length =
      (queues c).length + evs.countP (fun e => decide (catOf e = c)) := by
  rw [dispatchPhase_spec, List.length_append, List.countP_eq_length_filter]

theorem inboundPhase_none {E P : Type} (de : String → Option E)
    (apply_event : P → E → P × List E) (inbox : List String) (puz : P)
    (msg : String) (hmem : msg ∈ inbox) (hde : de msg = none) :
    inboundPhase de apply_event inbox puz = none := by
  induction inbox generalizing puz with
  | nil => cases hmem
  | cons m rest ih =>
    simp only [inboundPhase]
    rcases List.mem_cons.mp hmem with rfl | hmem'
    · rw [hde]
      rfl
    · cases hdm : de m with
      | none => rfl
      | some ev =>
        simp only [Option.some_bind, ih _ hmem', Option.map_none']

theorem forwardCat_preserves {E P : Type} (ser : E → String)
    (st : RelayState E P) (L : TickLog) (c : Cat) :
    (forwardCat ser st L c).1.queues = st.queues ∧
    (forwardCat ser st L c).1.puzzle = st.puzzle ∧
    (forwardCat ser st L c).1.phase = st.phase ∧
    (forwardCat ser st L c).2.1.dispStart = L.dispStart ∧
    (forwardCat ser st L c).2.1.dispCount = L.dispCount ∧
    (forwardCat ser st L c).2.1.ran = L.ran ∧
    (forwardCat ser st L c).2.1.ok = L.ok :=
  ⟨rfl, rfl, rfl, rfl, rfl, rfl, rfl⟩

theorem forwardCat_untouched {E P : Type} (ser : E → String)
    (st : RelayState E P) (L : TickLog) (c d : Cat) (hd : d ≠ c) :
    (forwardCat ser st L c).1.cursors d = st.cursors d ∧
    (forwardCat ser st L c).2.1.fwdStart d = L.fwdStart d ∧
    (forwardCat ser st L c).2.1.fwdCount d = L.fwdCount d := by
  refine ⟨?_, ?_, ?_⟩ <;> simp [forwardCat, updateCat, hd]

theorem forwardCat_self {E P : Type} (ser : E → String)
    (st : RelayState E P) (L : TickLog) (c : Cat) :
    (forwardCat ser st L c).1.cursors c = st.cursors c +
      (forward_events ser st.budget
        ((st.queues c).drop (st.cursors c))).consumed ∧
    (forwardCat ser st L c).2.1.fwdStart c = st.cursors c ∧
    (forwardCat ser st L c).2.1.fwdCount c =
      (forward_events ser st.budget
        ((st.queues c).drop (st.cursors c))).sentCount := by
  refine ⟨?_, ?_, ?_⟩ <;> simp [forwardCat, updateCat]

theorem forwardCat_mono {E P : Type} (ser : E → String)
    (st : RelayState E P) (L : TickLog) (c : Cat) :
    ∀ d, st.cursors d ≤ (forwardCat ser st L c).1.cursors d := by
  intro d
  by_cases hd : d = c
  · subst hd
    rw [(forwardCat_self ser st L d).1]
    omega
  · rw [(forwardCat_untouched ser st L c d hd).1]

theorem forwardCat_inv {E P : Type} (ser : E → String)
    (st : RelayState E P) (L : TickLog) (c : Cat) (hinv : Inv st) :
    Inv (forwardCat ser st L c).1 := by
  intro d
  rw [show (forwardCat ser st L c).1.queues = st.queues from rfl]
  by_cases hd : d = c
  · subst hd
    rw [(forwardCat_self ser st L d).1]
    have h1 := (forward_events_spec ser st.budget
      ((st.queues d).drop (st.cursors d))).2.1
    rw [List.length_drop] at h1
    have h2 := hinv d
    omega
  · rw [(forwardCat_untouched ser st L c d hd).1]
    exact hinv d

theorem forwardCat_bound {E P : Type} (ser : E → String)
    (st : RelayState E P) (L : TickLog) (c : Cat) :
    (forwardCat ser st L c).2.1.fwdStart c +
        (forwardCat ser st L c).2.1.fwdCount c ≤
      (forwardCat ser st L c).1.cursors c := by
  obtain ⟨h1, h2, h3⟩ := forwardCat_self ser st L c
  rw [h1, h2, h3]
  have := (forward_events_spec ser st.budget
    ((st.queues c).drop (st.cursors c))).1
  omega

theorem forwardCat_full {E P : Type} (ser : E → String)
    (st : RelayState E P) (L : TickLog) (c : Cat) (hinv : Inv st)
    (hok : (forwardCat ser st L c).2.2 = true) :
    (forwardCat ser st L c).1.cursors c = (st.queues c).length ∧
    (forwardCat ser st L c).2.1.fwdStart c +
        (forwardCat ser st L c).2.1.fwdCount c = (st.queues c).length := by
  obtain ⟨h1, h2, h3⟩ := forwardCat_self ser st L c
  have hok' : (forward_events ser st.budget
      ((st.queues c).drop (st.cursors c))).ok = true := hok
  obtain ⟨h4, h5⟩ := (forward_events_spec ser st.budget
    ((st.queues c).drop (st.cursors c))).2.2 hok'
  rw [List.length_drop] at h4 h5
  have h6 := hinv c
  rw [h1, h2, h3]
  omega

theorem outboundPhase_preserves {E P : Type} (ser : E → String)
    (cats : List Cat) :
    ∀ (st : RelayState E P) (L : TickLog),
      (outboundPhase ser cats st L).1.queues = st.queues ∧
      (outboundPhase ser cats st L).1.puzzle = st.puzzle ∧
      (outboundPhase ser cats st L).2.dispStart = L.dispStart ∧
      (outboundPhase ser cats st L).2.dispCount = L.dispCount ∧
      (outboundPhase ser cats st L).2.ran = L.ran := by
  induction cats with
  | nil => exact fun st L => ⟨rfl, rfl, rfl, rfl, rfl⟩
  | cons c cs ih =>
    intro st L
    simp only [outboundPhase]
    by_cases hok : (forwardCat ser st L c).2.2 = true
    · rw [if_pos hok]
      obtain ⟨q1, p1, d1, d2, r1⟩ :=
        ih (forwardCat ser st L c).1 (forwardCat ser st L c).2.1
      obtain ⟨q2, p2, _, d3, d4, r2, _⟩ := forwardCat_preserves ser st L c
      exact ⟨q1.trans q2, p1.trans p2, d1.trans d3, d2.trans d4, r1.trans r2⟩
    · rw [if_neg hok]
      obtain ⟨q2, p2, _, d3, d4, r2, _⟩ := forwardCat_preserves ser st L c
      exact ⟨q2, p2, d3, d4, r2⟩

theorem outboundPhase_mono {E P : Type} (ser : E → String)
    (cats : List Cat) :
    ∀ (st : RelayState E P) (L : TickLog) (d : Cat),
      st.cursors d ≤ (outboundPhase ser cats st L).1.cursors d := by
  induction cats with
  | nil => exact fun st L d => le_refl _
  | cons c cs ih =>
    intro st L d
    simp only [outboundPhase]
    by_cases hok : (forwardCat ser st L c).2.2 = true
    · rw [if_pos hok]
      exact (forwardCat_mono ser st L c d).trans (ih _ _ d)
    · rw [if_neg hok]
      exact forwardCat_mono ser st L c d

theorem outboundPhase_inv {E P : Type} (ser : E → String)
    (cats : List Cat) :
    ∀ (st : RelayState E P) (L : TickLog), Inv st →
      Inv (outboundPhase ser cats st L).1 := by
  induction cats with
  | nil => exact fun st L h => h
  | cons c cs ih =>
    intro st L hinv
    simp only [outboundPhase]
    by_cases hok : (forwardCat ser st L c).2.2 = true
    · rw [if_pos hok]
      exact ih _ _ (forwardCat_inv ser st L c hinv)
    · rw [if_neg hok]
      exact fun d => forwardCat_inv ser st L c hinv d

theorem outboundPhase_untouched {E P : Type} (ser : E → String)
    (cats : List Cat) :
    ∀ (st : RelayState E P) (L : TickLog) (d : Cat), d ∉ cats →
      (outboundPhase ser cats st L).1.cursors d = st.cursors d ∧
      (outboundPhase ser cats st L).2.fwdStart d = L.fwdStart d ∧
      (outboundPhase ser cats st L).2.fwdCount d = L.fwdCount d := by
  induction cats with
  | nil => exact fun st L d _ => ⟨rfl, rfl, rfl⟩
  | cons c cs ih =>
    intro st L d hd
    have hdc : d ≠ c := fun h => hd (h ▸ List.mem_cons_self c cs)
    have hdcs : d ∉ cs := fun h => hd (List.mem_cons_of_mem c h)
    simp only [outboundPhase]
    obtain ⟨u1, u2, u3⟩ := forwardCat_untouched ser st L c d hdc
    by_cases hok : (forwardCat ser st L c).2.2 = true
    · rw [if_pos hok]
      obtain ⟨v1, v2, v3⟩ := ih _ _ d hdcs
      exact ⟨v1.trans u1, v2.trans u2, v3.trans u3⟩
    · rw [if_neg hok]
      exact ⟨u1, u2, u3⟩

theorem outboundPhase_fwdStart {E P : Type} (ser : E → String)
    (cats : List Cat) :
    ∀ (st : RelayState E P) (L : TickLog), cats.Nodup →
      (∀ c ∈ cats, L.fwdStart c = st.cursors c) →
      ∀ c ∈ cats, (outboundPhase ser cats st L).2.fwdStart c = st.cursors c := by
  induction cats with
  | nil => intro st L _ _ c hc; cases hc
  | cons c₀ cs ih =>
    intro st L hnd hL c hc
    obtain ⟨hn1, hn2⟩ := List.nodup_cons.mp hnd
    have hL' : ∀ c ∈ cs, (forwardCat ser st L c₀).2.1.fwdStart c =
        (forwardCat ser st L c₀).1.cursors c := by
      intro d hdcs
      have hdc : d ≠ c₀ := fun h => hn1 (h ▸ hdcs)
      obtain ⟨u1, u2, u3⟩ := forwardCat_untouched ser st L c₀ d hdc
      rw [u1, u2]
      exact hL d (List.mem_cons_of_mem c₀ hdcs)
    simp only [outboundPhase]
    by_cases hok : (forwardCat ser st L c₀).2.2 = true
    · rw [if_pos hok]
      rcases List.mem_cons.mp hc with rfl | hcs
      · have hu := (outboundPhase_untouched ser cs (forwardCat ser st L c).1
          (forwardCat ser st L c).2.1 c hn1).2.1
        rw [hu]
        exact (forwardCat_self ser st L c).2.1
      · have hdc : c ≠ c₀ := fun h => hn1 (h ▸ hcs)
        rw [ih _ _ hn2 hL' c hcs]
        exact (forwardCat_untouched ser st L c₀ c hdc).1
    · rw [if_neg hok]
      rcases List.mem_cons.mp hc with rfl | hcs
      · exact (forwardCat_self ser st L c).2.1
      · have hdc : c ≠ c₀ := fun h => hn1 (h ▸ hcs)
        rw [(forwardCat_untouched ser st L c₀ c hdc).2.1]
        exact hL c (List.mem_cons_of_mem c₀ hcs)

theorem outboundPhase_bound {E P : Type} (ser : E → String)
    (cats : List Cat) :
    ∀ (st : RelayState E P) (L : TickLog),
      (∀ d, L.fwdStart d + L.fwdCount d ≤ st.cursors d) →
      ∀ d, (outboundPhase ser cats st L).2.fwdStart d +
          (outboundPhase ser cats st L).2.fwdCount d ≤
        (outboundPhase ser cats st L).1.cursors d := by
  induction cats with
  | nil => exact fun st L h d => h d
  | cons c cs ih =>
    intro st L hL d
    have hL' : ∀ d', (forwardCat ser st L c).2.1.fwdStart d' +
        (forwardCat ser st L c).2.1.fwdCount d' ≤
        (forwardCat ser st L c).1.cursors d' := by
      intro d'
      by_cases hd : d' = c
      · subst hd
        exact forwardCat_bound ser st L d'
      · obtain ⟨u1, u2, u3⟩ := forwardCat_untouched ser st L c d' hd
        rw [u1, u2, u3]
        exact hL d'
    simp only [outboundPhase]
    by_cases hok : (forwardCat ser st L c).2.2 = true
    · rw [if_pos hok]
      exact ih _ _ hL' d
    · rw [if_neg hok]
      exact hL' d

theorem outboundPhase_full {E P : Type} (ser : E → String)
    (cats : List Cat) :
    ∀ (st : RelayState E P) (L : TickLog), Inv st → cats.Nodup →
      (outboundPhase ser cats st L).2.ok = true →
      ∀ c ∈ cats,
        (outboundPhase ser cats st L).1.cursors c = (st.queues c).length ∧
        (outboundPhase ser cats st L).2.fwdStart c +
            (outboundPhase ser cats st L).2.fwdCount c =
          (st.queues c).length := by
  induction cats with
  | nil => intro st L _ _ _ c hc; cases hc
  | cons c₀ cs ih =>
    intro st L hinv hnd hok' c hc
    obtain ⟨hn1, hn2⟩ := List.nodup_cons.mp hnd
    simp only [outboundPhase] at hok' ⊢
    by_cases hok : (forwardCat ser st L c₀).2.2 = true
    · rw [if_pos hok] at hok' ⊢
      rcases List.mem_cons.mp hc with rfl | hcs
      · obtain ⟨f1, f2⟩ := forwardCat_full ser st L c hinv hok
        obtain ⟨v1, v2, v3⟩ := outboundPhase_untouched ser cs
          (forwardCat ser st L c).1 (forwardCat ser st L c).2.1 c hn1
        refine ⟨v1.trans f1, ?_⟩
        rw [v2, v3]
        exact f2
      · obtain ⟨w1, w2⟩ := ih _ _ (forwardCat_inv ser st L c₀ hinv) hn2 hok' c hcs
        rw [(forwardCat_preserves ser st L c₀).1] at w1 w2
        exact ⟨w1, w2⟩
    · rw [if_neg hok] at hok'
      exact Bool.noConfusion hok'

theorem outboundPhase_abort {E P : Type} (ser : E → String)
    (cats : List Cat) :
    ∀ (st : RelayState E P) (L : TickLog), Inv st → cats.Nodup →
      L.ok = true → (outboundPhase ser cats st L).2.ok = false →
      (outboundPhase ser cats st L).1.phase = AppState.Connecting ∧
      ∃ pre cf post, cats = pre ++ cf :: post ∧
        (∀ d ∈ pre,
          (outboundPhase ser cats st L).1.cursors d = (st.queues d).length) ∧
        (∀ d ∈ post,
          (outboundPhase ser cats st L).1.cursors d = st.cursors d ∧
          (outboundPhase ser cats st L).2.fwdCount d = L.fwdCount d) := by
  induction cats with
  | nil =>
    intro st L _ _ hLok hok
    rw [show (outboundPhase ser ([] : List Cat) st L).2.ok = L.ok from rfl,
      hLok] at hok
    exact Bool.noConfusion hok
  | cons c₀ cs ih =>
    intro st L hinv hnd hLok hok'
    obtain ⟨hn1, hn2⟩ := List.nodup_cons.mp hnd
    simp only [outboundPhase] at hok' ⊢
    by_cases hok : (forwardCat ser st L c₀).2.2 = true
    · rw [if_pos hok] at hok' ⊢
      have hLok' : (forwardCat ser st L c₀).2.1.ok = true := by
        rw [(forwardCat_preserves ser st L c₀).2.2.2.2.2.2]
        exact hLok
      obtain ⟨hph, pre, cf, post, hsplit, hpre, hpost⟩ :=
        ih _ _ (forwardCat_inv ser st L c₀ hinv) hn2 hLok' hok'
      refine ⟨hph, c₀ :: pre, cf, post, by rw [List.cons_append, hsplit], ?_, ?_⟩
      · intro d hd
        rcases List.mem_cons.mp hd with rfl | hdpre
        · rw [(outboundPhase_untouched ser cs (forwardCat ser st L d).1
            (forwardCat ser st L d).2.1 d hn1).1]
          exact (forwardCat_full ser st L d hinv hok).1
        · have := hpre d hdpre
          rw [(forwardCat_preserves ser st L c₀).1] at this
          exact this
      · intro d hd
        have hdcs : d ∈ cs := by
          rw [hsplit]
          exact List.mem_append_right pre (List.mem_cons_of_mem cf hd)
        have hdc : d ≠ c₀ := fun h => hn1 (h ▸ hdcs)
        obtain ⟨u1, u2, u3⟩ := forwardCat_untouched ser st L c₀ d hdc
        obtain ⟨w1, w2⟩ := hpost d hd
        exact ⟨w1.trans u1, w2.trans u3⟩
    · rw [if_neg hok] at hok' ⊢
      refine ⟨rfl, [], c₀, cs, rfl, fun d hd => absurd hd (List.not_mem_nil d), ?_⟩
      intro d hd
      have hdc : d ≠ c₀ := fun h => hn1 (h ▸ hd)
      obtain ⟨u1, u2, u3⟩ := forwardCat_untouched ser st L c₀ d hdc
      exact ⟨u1, u3⟩

theorem event_io_spec {E P : Type} (ser : E → String) (de : String → Option E)
    (catOf : E → Cat) (apply_event : P → E → P × List E)
    (st st' : RelayState E P) (inbox : List String) (L : TickLog)
    (hinv : Inv st)
    (h : event_io ser de catOf apply_event st inbox = some (st', L)) :
    Inv st' ∧
    (∀ c, st.cursors c ≤ st'.cursors c) ∧
    (∀ c, L.fwdStart c = st.cursors c) ∧
    (∀ c, L.dispStart c = (st.queues c).length) ∧
    (∀ c, L.fwdStart c + L.fwdCount c ≤ st'.cursors c) ∧
    (∀ c, L.fwdStart c + L.fwdCount c ≤ L.dispStart c) ∧
    (∀ c, L.dispStart c + L.dispCount c = (st'.queues c).length) ∧
    (L.ok = true → ∀ c, st'.cursors c = (st'.queues c).length) ∧
    (L.ok = true → ∀ c, L.fwdStart c + L.fwdCount c = L.dispStart c) ∧
    L.ran = true ∧
    (∀ c p, Dispatched L c p → p < st'.cursors c) := by
  have hobP := outboundPhase_preserves ser catOrder st (initLog st)
  have hobM := outboundPhase_mono ser catOrder st (initLog st)
  have hobI := outboundPhase_inv ser catOrder st (initLog st) hinv
  have hobS := outboundPhase_fwdStart ser catOrder st (initLog st)
    catOrder_nodup (fun c _ => rfl)
  have hobB := outboundPhase_bound ser catOrder st (initLog st)
    (fun d => Nat.le_of_eq (Nat.add_zero _))
  have hqlen : ∀ c,
      ((outboundPhase ser catOrder st (initLog st)).1.queues c).length =
        (st.queues c).length := by
    intro c
    rw [congrFun hobP.1 c]
  rw [event_io] at h
  by_cases hok : (outboundPhase ser catOrder st (initLog st)).2.ok = true
  · rw [if_pos hok] at h
    cases hib : inboundPhase de apply_event inbox
        (outboundPhase ser catOrder st (initLog st)).1.puzzle with
    | none =>
      rw [hib] at h
      exact absurd h (by simp)
    | some pr =>
      rw [hib] at h
      injection h with h2
      rw [Prod.mk.injEq] at h2
      obtain ⟨h3, h4⟩ := h2
      subst h3
      subst h4
      have hfull := outboundPhase_full ser catOrder st (initLog st) hinv
        catOrder_nodup hok
      dsimp only
      refine ⟨fun c => Nat.le_refl _, ?_, ?_, ?_, ?_, ?_, ?_,
        fun _ c => rfl, ?_, hobP.2.2.2.2, ?_⟩
      · intro c
        have e1 := hobM c
        have e2 := hobI c
        have e3 : ((outboundPhase ser catOrder st (initLog st)).1.queues c).length ≤
            (dispatchPhase catOf pr.2
              (outboundPhase ser catOrder st (initLog st)).1.queues c).length := by
          rw [dispatchPhase_length]
          omega
        exact le_trans (le_trans e1 e2) e3
      · intro c
        exact hobS c (catOrder_complete c)
      · intro c
        exact congrFun hobP.2.2.1 c
      · intro c
        have e1 := hobB c
        have e2 := hobI c
        have e3 : ((outboundPhase ser catOrder st (initLog st)).1.queues c).length ≤
            (dispatchPhase catOf pr.2
              (outboundPhase ser catOrder st (initLog st)).1.queues c).length := by
          rw [dispatchPhase_length]
          omega
        exact le_trans (le_trans e1 e2) e3
      · intro c
        have e1 := hobB c
        have e2 := hobI c
        have e3 := hqlen c
        have e4 : (outboundPhase ser catOrder st (initLog st)).2.dispStart c =
            (st.queues c).length := congrFun hobP.2.2.1 c
        omega
      · intro c
        have e1 := hqlen c
        have e2 : (outboundPhase ser catOrder st (initLog st)).2.dispStart c =
            (st.queues c).length := congrFun hobP.2.2.1 c
        have e3 : (dispatchPhase catOf pr.2
            (outboundPhase ser catOrder st (initLog st)).1.queues c).length =
            ((outboundPhase ser catOrder st (initLog st)).1.queues c).length +
              pr.2.countP (fun e => decide (catOf e = c)) :=
          dispatchPhase_length catOf pr.2 _ c
        omega
      · intro _ c
        have e1 := (hfull c (catOrder_complete c)).2
        have e2 : (outboundPhase ser catOrder st (initLog st)).2.dispStart c =
            (st.queues c).length := congrFun hobP.2.2.1 c
        omega
      · intro c p hd
        obtain ⟨hd1, hd2⟩ := hd
        dsimp only [Dispatched] at hd1 hd2
        have e1 := hqlen c
        have e2 : (outboundPhase ser catOrder st (initLog st)).2.dispStart c =
            (st.queues c).length := congrFun hobP.2.2.1 c
        have e3 : (dispatchPhase catOf pr.2
            (outboundPhase ser catOrder st (initLog st)).1.queues c).length =
            ((outboundPhase ser catOrder st (initLog st)).1.queues c).length +
              pr.2.countP (fun e => decide (catOf e = c)) :=
          dispatchPhase_length catOf pr.2 _ c
        omega
  · rw [if_neg hok] at h
    injection h with h2
    rw [Prod.mk.injEq] at h2
    obtain ⟨h3, h4⟩ := h2
    subst h3
    subst h4
    refine ⟨hobI, hobM, ?_, ?_, hobB, ?_, ?_, ?_, ?_, hobP.2.2.2.2, ?_⟩
    · intro c
      exact hobS c (catOrder_complete c)
    · intro c
      exact congrFun hobP.2.2.1 c
    · intro c
      have e1 := hobB c
      have e2 := hobI c
      have e3 := hqlen c
      have e4 : (outboundPhase ser catOrder st (initLog st)).2.dispStart c =
          (st.queues c).length := congrFun hobP.2.2.1 c
      omega
    · intro c
      have e1 := hqlen c
      have e2 : (outboundPhase ser catOrder st (initLog st)).2.dispStart c =
          (st.queues c).length := congrFun hobP.2.2.1 c
      have e3 : (outboundPhase ser catOrder st (initLog st)).2.dispCount c = 0 :=
        congrFun hobP.2.2.2.1 c
      omega
    · intro hLok
      exact absurd hLok hok
    · intro hLok
      exact absurd hLok hok
    · intro c p hd
      obtain ⟨hd1, hd2⟩ := hd
      have e3 : (outboundPhase ser catOrder st (initLog st)).2.dispCount c = 0 :=
        congrFun hobP.2.2.2.1 c
      omega

/-- C4: a malformed inbound message during Playing is fatal: if the
outbound phase succeeds and any drained message fails to deserialize,
the event_io tick is the modelled panic (none) - no recovery, no partial
state for that message, no silent drop. -/
theorem malformed_event_fatal {E P : Type} (ser : E → String)
    (de : String → Option E) (catOf : E → Cat)
    (apply_event : P → E → P × List E) (st : RelayState E P)
    (inbox : List String) (msg : String)
    (hok : (outboundPhase ser catOrder st (initLog st)).2.ok = true)
    (hmem : msg ∈ inbox) (hde : de msg = none) :
    event_io ser de catOf apply_event st inbox = none := by
  rw [event_io, if_pos hok,
    inboundPhase_none de apply_event inbox _ msg hmem hde]

/-- C2: when a send fails during the outbound phase of a tick, the tick
sets the phase to Connecting and aborts: the inbound, dispatch and
cursor-advance phases do not run (puzzle and queues unchanged, nothing
dispatched), and there is a split of the fixed forwarding order at the
failing category such that every earlier category has its cursor at the
end of its queue (advanced, no rollback) while every later category
forwarded nothing and kept its cursor. -/
theorem send_failure_aborts {E P : Type} (ser : E → String)
    (de : String → Option E) (catOf : E → Cat)
    (apply_event : P → E → P × List E)
    (st st' : RelayState E P) (inbox : List String) (L : TickLog)
    (hinv : Inv st)
    (h : event_io ser de catOf apply_event st inbox = some (st', L))
    (hfail : L.ok = false) :
    st'.phase = AppState.Connecting ∧
    st'.queues = st.queues ∧
    st'.puzzle = st.puzzle ∧
    (∀ c, L.dispCount c = 0) ∧
    ∃ pre cf post, catOrder = pre ++ cf :: post ∧
      (∀ d ∈ pre, st'.cursors d = (st.queues d).length) ∧
      (∀ d ∈ post, L.fwdCount d = 0 ∧ st'.cursors d = st.cursors d) := by
  have hobP := outboundPhase_preserves ser catOrder st (initLog st)
  rw [event_io] at h
  by_cases hok : (outboundPhase ser catOrder st (initLog st)).2.ok = true
  · rw [if_pos hok] at h
    cases hib : inboundPhase de apply_event inbox
        (outboundPhase ser catOrder st (initLog st)).1.puzzle with
    | none =>
      rw [hib] at h
      exact absurd h (by simp)
    | some pr =>
      rw [hib] at h
      injection h with h2
      rw [Prod.mk.injEq] at h2
      obtain ⟨h3, h4⟩ := h2
      subst h3
      subst h4
      have hfail' : (outboundPhase ser catOrder st (initLog st)).2.ok = false :=
        hfail
      exact Bool.noConfusion (hok.symm.trans hfail')
  · rw [if_neg hok] at h
    injection h with h2
    rw [Prod.mk.injEq] at h2
    obtain ⟨h3, h4⟩ := h2
    subst h3
    subst h4
    have hfail' : (outboundPhase ser catOrder st (initLog st)).2.ok = false :=
      hfail
    obtain ⟨hph, pre, cf, post, hsplit, hpre, hpost⟩ :=
      outboundPhase_abort ser catOrder st (initLog st) hinv catOrder_nodup
        rfl hfail'
    refine ⟨hph, hobP.1, hobP.2.1, ?_, pre, cf, post, hsplit, hpre, ?_⟩
    · intro c
      exact congrFun hobP.2.2.2.1 c
    · intro d hd
      obtain ⟨w1, w2⟩ := hpost d hd
      exact ⟨w2, w1⟩

theorem inv_appendLocals {E P : Type} (catOf : E → Cat)
    (st : RelayState E P) (evs : List E) (hinv : Inv st) :
    Inv { st with queues := dispatchPhase catOf evs st.queues } := by
  intro c
  show st.cursors c ≤ (dispatchPhase catOf evs st.queues c).length
  rw [dispatchPhase_length]
  have := hinv c
  omega

theorem applyRound_spec {E P : Type} (ser : E → String)
    (de : String → Option E) (catOf : E → Cat)
    (apply_event : P → E → P × List E)
    (st st' : RelayState E P) (rd : Round E) (L : TickLog) (hinv : Inv st)
    (h : applyRound ser de catOf apply_event st rd = some (st', L)) :
    Inv st' ∧
    (∀ c, st.cursors c ≤ st'.cursors c) ∧
    (∀ c, L.fwdStart c = st.cursors c) ∧
    (∀ c, L.fwdStart c + L.fwdCount c ≤ st'.cursors c) ∧
    (∀ c p, Dispatched L c p → p < st'.cursors c) ∧
    (∀ c, L.fwdStart c + L.fwdCount c ≤ L.dispStart c) ∧
    (L.ran = true → L.ok = true →
      ∀ c, L.fwdStart c + L.fwdCount c = L.dispStart c) ∧
    (L.ran = true → L.ok = true →
      ∀ c, L.dispStart c + L.dispCount c ≤ st'.cursors c) := by
  rw [applyRound] at h
  by_cases hpl : st.phase = AppState.Playing
  · rw [if_pos hpl] at h
    have hinv1 := inv_appendLocals catOf st rd.locals hinv
    obtain ⟨T1, T2, T3, T4, T5, T6, T7, T8, T9, T10, T11⟩ :=
      event_io_spec ser de catOf apply_event _ st' rd.inbox L hinv1 h
    refine ⟨T1, T2, T3, T5, T11, T6, fun _ => T9, fun _ hLok c => ?_⟩
    have e1 := T7 c
    have e2 := T8 hLok c
    omega
  · rw [if_neg hpl] at h
    injection h with h2
    rw [Prod.mk.injEq] at h2
    obtain ⟨h3, h4⟩ := h2
    subst h3
    subst h4
    refine ⟨hinv, fun c => Nat.le_refl _, fun c => rfl,
      fun c => Nat.le_of_eq (Nat.add_zero _), ?_, ?_,
      fun hran => Bool.noConfusion hran, fun hran => Bool.noConfusion hran⟩
    · intro c p hd
      obtain ⟨hd1, hd2⟩ := hd
      have e : (skipLog st).dispCount c = 0 := rfl
      omega
    · intro c
      have e1 : (skipLog st).fwdStart c = st.cursors c := rfl
      have e2 : (skipLog st).fwdCount c = 0 := rfl
      have e3 : (skipLog st).dispStart c = (st.queues c).length := rfl
      have e4 := hinv c
      omega

theorem runRounds_cons_elim {E P : Type} (ser : E → String)
    (de : String → Option E) (catOf : E → Cat)
    (apply_event : P → E → P × List E) (rd : Round E) (rds : List (Round E))
    (st stN : RelayState E P) (logs : List TickLog)
    (h : runRounds ser de catOf apply_event (rd :: rds) st = some (stN, logs)) :
    ∃ st₁ L Ls, applyRound ser de catOf apply_event st rd = some (st₁, L) ∧
      runRounds ser de catOf apply_event rds st₁ = some (stN, Ls) ∧
      logs = L :: Ls := by
  simp only [runRounds] at h
  cases har : applyRound ser de catOf apply_event st rd with
  | none =>
    rw [har] at h
    exact absurd h (by simp)
  | some pr =>
    rw [har] at h
    simp only [Option.some_bind] at h
    cases hrr : runRounds ser de catOf apply_event rds pr.1 with
    | none =>
      rw [hrr] at h
      exact absurd h (by simp)
    | some pr2 =>
      rw [hrr] at h
      simp only [Option.map_some'] at h
      injection h with h2
      rw [Prod.mk.injEq] at h2
      obtain ⟨h3, h4⟩ := h2
      exact ⟨pr.1, pr.2, pr2.2, rfl, by rw [← h3]; exact hrr, h4.symm⟩

theorem runRounds_not_forwarded {E P : Type} (ser : E → String)
    (de : String → Option E) (catOf : E → Cat)
    (apply_event : P → E → P × List E) (rds : List (Round E)) :
    ∀ (st stN : RelayState E P) (logs : List TickLog), Inv st →
      runRounds ser de catOf apply_event rds st = some (stN, logs) →
      ∀ c p, p < st.cursors c →
      ∀ k (hk : k < logs.length), ¬ Forwarded (logs.get ⟨k, hk⟩) c p := by
  induction rds with
  | nil =>
    intro st stN logs _ h c p _ k hk
    simp only [runRounds] at h
    injection h with h2
    rw [Prod.mk.injEq] at h2
    obtain ⟨h3, h4⟩ := h2
    subst h4
    exact absurd hk (Nat.not_lt_zero k)
  | cons rd rds ih =>
    intro st stN logs hinv h c p hp k hk
    obtain ⟨st₁, L, Ls, har, hrr, hlogs⟩ :=
      runRounds_cons_elim ser de catOf apply_event rd rds st stN logs h
    subst hlogs
    obtain ⟨A1, A2, A3, A4, A5, A6, A7, A8⟩ :=
      applyRound_spec ser de catOf apply_event st st₁ rd L hinv har
    cases k with
    | zero =>
      intro hF
      obtain ⟨hF1, hF2⟩ := hF
      have e := A3 c
      have hget : ((L :: Ls).get ⟨0, hk⟩) = L := rfl
      rw [hget] at hF1
      omega
    | succ k' =>
      have hp1 : p < st₁.cursors c := lt_of_lt_of_le hp (A2 c)
      exact ih st₁ stN Ls A1 hrr c p hp1 k' (Nat.lt_of_succ_lt_succ hk)

theorem runRounds_fwdStart_ge {E P : Type} (ser : E → String)
    (de : String → Option E) (catOf : E → Cat)
    (apply_event : P → E → P × List E) (rds : List (Round E)) :
    ∀ (st stN : RelayState E P) (logs : List TickLog), Inv st →
      runRounds ser de catOf apply_event rds st = some (stN, logs) →
      ∀ k (hk : k < logs.length) (c : Cat),
        st.cursors c ≤ (logs.get ⟨k, hk⟩).fwdStart c := by
  induction rds with
  | nil =>
    intro st stN logs _ h k hk c
    simp only [runRounds] at h
    injection h with h2
    rw [Prod.mk.injEq] at h2
    obtain ⟨h3, h4⟩ := h2
    subst h4
    exact absurd hk (Nat.not_lt_zero k)
  | cons rd rds ih =>
    intro st stN logs hinv h k hk c
    obtain ⟨st₁, L, Ls, har, hrr, hlogs⟩ :=
      runRounds_cons_elim ser de catOf apply_event rd rds st stN logs h
    subst hlogs
    obtain ⟨A1, A2, A3, A4, A5, A6, A7, A8⟩ :=
      applyRound_spec ser de catOf apply_event st st₁ rd L hinv har
    cases k with
    | zero => exact Nat.le_of_eq (A3 c).symm
    | succ k' =>
      exact le_trans (A2 c)
        (ih st₁ stN Ls A1 hrr k' (Nat.lt_of_succ_lt_succ hk) c)

/-- C1: anti-feedback.  Over any run of frames, an event dispatched into
a local category queue by the tick of frame T (a position appended by
the dispatch phase) is never forwarded to the peer by that tick nor by
the tick of any later frame: cursors are advanced past every dispatched
position before the next outbound phase. -/
theorem anti_feedback {E P : Type} (ser : E → String)
    (de : String → Option E) (catOf : E → Cat)
    (apply_event : P → E → P × List E) (rds : List (Round E)) :
    ∀ (st stN : RelayState E P) (logs : List TickLog), Inv st →
      runRounds ser de catOf apply_event rds st = some (stN, logs) →
      ∀ T Tf (hT : T < logs.length) (hTf : Tf < logs.length), T ≤ Tf →
      ∀ c p, Dispatched (logs.get ⟨T, hT⟩) c p →
        ¬ Forwarded (logs.get ⟨Tf, hTf⟩) c p := by
  induction rds with
  | nil =>
    intro st stN logs _ h T Tf hT hTf _ c p _
    simp only [runRounds] at h
    injection h with h2
    rw [Prod.mk.injEq] at h2
    obtain ⟨h3, h4⟩ := h2
    subst h4
    exact absurd hT (Nat.not_lt_zero T)
  | cons rd rds ih =>
    intro st stN logs hinv h T Tf hT hTf hTTf c p hD
    obtain ⟨st₁, L, Ls, har, hrr, hlogs⟩ :=
      runRounds_cons_elim ser de catOf apply_event rd rds st stN logs h
    subst hlogs
    obtain ⟨A1, A2, A3, A4, A5, A6, A7, A8⟩ :=
      applyRound_spec ser de catOf apply_event st st₁ rd L hinv har
    cases T with
    | zero =>
      cases Tf with
      | zero =>
        intro hF
        obtain ⟨hF1, hF2⟩ := hF
        obtain ⟨hD1, hD2⟩ := hD
        have e := A6 c
        have hget : ((L :: Ls).get ⟨0, hT⟩) = L := rfl
        rw [hget] at hD1 hD2
        rw [hget] at hF1 hF2
        omega
      | succ k' =>
        have hp : p < st₁.cursors c := A5 c p hD
        exact runRounds_not_forwarded ser de catOf apply_event rds st₁ stN Ls
          A1 hrr c p hp k' (Nat.lt_of_succ_lt_succ hTf)
    | succ k =>
      cases Tf with
      | zero => exact absurd hTTf (by omega)
      | succ k' =>
        exact ih st₁ stN Ls A1 hrr k k' (Nat.lt_of_succ_lt_succ hT)
          (Nat.lt_of_succ_lt_succ hTf) (Nat.le_of_succ_le_succ hTTf) c p hD

/-- C3: exactly-once forwarding.  In any run, consider a frame T whose
tick ran without send failure, and any queue position p of category c
that was appended before that tick and not yet seen by the outbound
cursor (fwdStart ≤ p < dispStart).  Then p is forwarded by the tick of
frame T, and by the tick of no other frame of the run: no omission, no
duplication. -/
theorem exactly_once {E P : Type} (ser : E → String)
    (de : String → Option E) (catOf : E → Cat)
    (apply_event : P → E → P × List E) (rds : List (Round E)) :
    ∀ (st stN : RelayState E P) (logs : List TickLog), Inv st →
      runRounds ser de catOf apply_event rds st = some (stN, logs) →
      ∀ T (hT : T < logs.length) (c : Cat) (p : Nat),
        (logs.get ⟨T, hT⟩).ran = true → (logs.get ⟨T, hT⟩).ok = true →
        (logs.get ⟨T, hT⟩).fwdStart c ≤ p →
        p < (logs.get ⟨T, hT⟩).dispStart c →
        Forwarded (logs.get ⟨T, hT⟩) c p ∧
        ∀ Tf (hTf : Tf < logs.length), Tf ≠ T →
          ¬ Forwarded (logs.get ⟨Tf, hTf⟩) c p := by
  induction rds with
  | nil =>
    intro st stN logs _ h T hT c p _ _ _ _
    simp only [runRounds] at h
    injection h with h2
    rw [Prod.mk.injEq] at h2
    obtain ⟨h3, h4⟩ := h2
    subst h4
    exact absurd hT (Nat.not_lt_zero T)
  | cons rd rds ih =>
    intro st stN logs hinv h T hT c p hran hok h1 h2
    obtain ⟨st₁, L, Ls, har, hrr, hlogs⟩ :=
      runRounds_cons_elim ser de catOf apply_event rd rds st stN logs h
    subst hlogs
    obtain ⟨A1, A2, A3, A4, A5, A6, A7, A8⟩ :=
      applyRound_spec ser de catOf apply_event st st₁ rd L hinv har
    cases T with
    | zero =>
      have hget : ((L :: Ls).get ⟨0, hT⟩) = L := rfl
      rw [hget] at hran hok h1 h2
      have hfull := A7 hran hok c
      constructor
      · rw [hget]
        exact ⟨h1, by omega⟩
      · intro Tf hTf hne
        cases Tf with
        | zero => exact absurd rfl hne
        | succ k' =>
          have hds := A8 hran hok c
          have hp : p < st₁.cursors c := by omega
          exact runRounds_not_forwarded ser de catOf apply_event rds st₁ stN
            Ls A1 hrr c p hp k' (Nat.lt_of_succ_lt_succ hTf)
    | succ k =>
      have hget1 : ((L :: Ls).get ⟨k + 1, hT⟩) =
          Ls.get ⟨k, Nat.lt_of_succ_lt_succ hT⟩ := rfl
      rw [hget1] at hran hok h1 h2
      obtain ⟨W1, W2⟩ := ih st₁ stN Ls A1 hrr k (Nat.lt_of_succ_lt_succ hT)
        c p hran hok h1 h2
      refine ⟨W1, ?_⟩
      intro Tf hTf hne
      cases Tf with
      | zero =>
        intro hF
        obtain ⟨hF1, hF2⟩ := hF
        have hget : ((L :: Ls).get ⟨0, hTf⟩) = L := rfl
        rw [hget] at hF1 hF2
        have e1 := A4 c
        have e2 := runRounds_fwdStart_ge ser de catOf apply_event rds st₁ stN
          Ls A1 hrr k (Nat.lt_of_succ_lt_succ hT) c
        omega
      | succ k' =>
        exact W2 k' (Nat.lt_of_succ_lt_succ hTf)
          (fun hh => hne (congrArg Nat.succ hh))

/-! Concrete fixtures for the relay witnesses: events and puzzles are
natural numbers, every event lands in the PieceMoved category, and
applying an event echoes it back as a derived event. -/

def wSer : Nat → String := fun _ => "s"

def wDe : String → Option Nat := fun s => if s = "m" then some 7 else none

def wCat : Nat → Cat := fun _ => Cat.pieceMoved

def wApply : Nat → Nat → Nat × List Nat := fun p e => (p, [e])

def wSt : RelayState Nat Nat :=
  ⟨fun _ => [], fun _ => 0, 0, 10, [], AppState.Playing⟩

def w1run : Option (RelayState Nat Nat × List TickLog) :=
  runRounds wSer wDe wCat wApply [⟨[], ["m"]⟩] wSt

/-- A witness for anti_feedback: a run of one frame that receives one
peer event, dispatches it at position 0 of its queue, and never forwards
that position back. -/
theorem anti_feedback_witness :
    ¬ Forwarded ((w1run.getD (wSt, [])).2.getD 0 (skipLog wSt))
      Cat.pieceMoved 0 := by
  have h := anti_feedback wSer wDe wCat wApply
    [⟨[], ["m"]⟩] wSt ((w1run.getD (wSt, [])).1) ((w1run.getD (wSt, [])).2)
    (fun c => Nat.zero_le _) rfl 0 0 (by decide) (by decide) (Nat.le_refl 0)
    Cat.pieceMoved 0 (by decide)
  exact h

def w3run : Option (RelayState Nat Nat × List TickLog) :=
  runRounds wSer wDe wCat wApply [⟨[9], []⟩] wSt

/-- A witness for exactly_once: a run of one frame with one locally
generated event forwards the event (position 0) in that frame. -/
theorem exactly_once_witness :
    Forwarded ((w3run.getD (wSt, [])).2.getD 0 (skipLog wSt))
      Cat.pieceMoved 0 := by
  have h := exactly_once wSer wDe wCat wApply
    [⟨[9], []⟩] wSt ((w3run.getD (wSt, [])).1) ((w3run.getD (wSt, [])).2)
    (fun c => Nat.zero_le _) rfl 0 (by decide) Cat.pieceMoved 0
    (by decide) (by decide) (by decide) (by decide)
  exact h.1

def w2st : RelayState Nat Nat :=
  ⟨fun c => if c = Cat.pieceMoved then [5] else [], fun _ => 0, 0, 0, [],
    AppState.Playing⟩

def w2res : Option (RelayState Nat Nat × TickLog) :=
  event_io wSer wDe wCat wApply w2st []

/-- A witness for send_failure_aborts: with a dead outbound channel (no
send budget) and one pending event, the tick moves the phase to
Connecting and leaves queues and puzzle untouched. -/
theorem send_failure_aborts_witness :
    (w2res.getD (w2st, skipLog w2st)).1.phase = AppState.Connecting ∧
    (w2res.getD (w2st, skipLog w2st)).1.queues = w2st.queues ∧
    (w2res.getD (w2st, skipLog w2st)).1.puzzle = w2st.puzzle := by
  have h := send_failure_aborts wSer wDe wCat wApply w2st
    ((w2res.getD (w2st, skipLog w2st)).1) []
    ((w2res.getD (w2st, skipLog w2st)).2)
    (fun c => Nat.zero_le _) rfl (by decide)
  exact ⟨h.1, h.2.1, h.2.2.1⟩

/-- A witness for malformed_event_fatal: one undecodable buffered
message makes the tick the modelled panic. -/
theorem malformed_event_fatal_witness :
    event_io wSer (fun _ => none) wCat wApply wSt ["bad"] = none :=
  malformed_event_fatal wSer (fun _ => none) wCat wApply wSt ["bad"] "bad"
    (by decide) (by decide) rfl
end Jigsaw
